/- Verification of the clean-data QGIS plugin's batch translation pipeline.

   Shallow embedding of:
     * src/clean_data_utils.py : parse_translations_list, translate_with_ollama,
       translate_with_llm, translate_with_google, translate_column
     * src/modules/translation.py : GoogleTranslateService.translate,
       OllamaService.translate (and their _translate_single/_translate_batch),
       TranslationTask.run, and the layer edit/commit/rollback discipline.

   External collaborators (HTTP endpoints, the QGIS layer provider, settings)
   are modelled as explicit oracle parameters; the plugin's own control flow,
   string processing and state updates are translated from the source.
   Python strings are modelled as Lean String (ASCII whitespace for str.strip,
   ASCII digits for str.isdigit; the test inputs used here are ASCII). -/
import Mathlib

/-! ## Python-style character and string primitives (List Char based) -/

/-- The whitespace characters stripped by Python's `str.strip()` (ASCII part). -/
def pyIsSpace (c : Char) : Bool :=
  c = ' ' || c = '\t' || c = '\n' || c = '\x0d' || c = Char.ofNat 11 || c = Char.ofNat 12

/-- ASCII decimal digit test, modelling Python's `str.isdigit` on ASCII input. -/
def pyIsDigit (c : Char) : Bool := '0' ≤ c && c ≤ '9'

/-- The single-quote character (written via its code point). -/
def quoteS : Char := Char.ofNat 39

/-- A character that opens/closes a quoted segment in the regex `['"]…['"]`. -/
def isQuoteChar (c : Char) : Bool := c = quoteS || c = '"'

/-- `str.strip()` on a character list: drop leading and trailing whitespace. -/
def stripL (cs : List Char) : List Char :=
  ((cs.dropWhile pyIsSpace).reverse.dropWhile pyIsSpace).reverse

/-- Python `str.strip()` (default whitespace form). -/
def pyStrip (s : String) : String := String.mk (stripL s.data)

/-- `str.strip(bag)`: drop leading and trailing characters belonging to `bag`. -/
def stripCharsL (cs : List Char) (bag : List Char) : List Char :=
  ((cs.dropWhile (fun c => c ∈ bag)).reverse.dropWhile (fun c => c ∈ bag)).reverse

/-- Python `str.split(sep)` for a one-character separator (keeps empty parts). -/
def splitCharL (sep : Char) : List Char → List (List Char)
  | [] => [[]]
  | c :: r =>
    match splitCharL sep r with
    | [] => [[]]
    | g :: gs => if c = sep then [] :: g :: gs else (c :: g) :: gs

/-- `sep.join` on character lists (inverse of `splitCharL` on sep-free parts). -/
def joinSepL (sep : Char) : List (List Char) → List Char
  | [] => []
  | [l] => l
  | l :: ls => l ++ sep :: joinSepL sep ls

/-- Prefix test on character lists. -/
def begsWith : List Char → List Char → Bool
  | [], _ => true
  | _ :: _, [] => false
  | p :: ps, c :: cs => p = c && begsWith ps cs

/-- Python's substring containment `pat in s`. -/
def containsL (pat : List Char) : List Char → Bool
  | [] => begsWith pat []
  | c :: t => begsWith pat (c :: t) || containsL pat t

/-- Python substring containment at the `String` level. -/
def containsSub (s pat : String) : Bool := containsL pat.data s.data

/-- Python `str.replace(pat, rep)`: replace all non-overlapping occurrences,
left to right (`pat` is assumed non-empty, as in all call sites). -/
def replaceLF (pat rep : List Char) : Nat → List Char → List Char
  | 0, s => s
  | fuel + 1, s =>
    match s with
    | [] => []
    | c :: t =>
      if pat ≠ [] ∧ begsWith pat (c :: t) then
        rep ++ replaceLF pat rep fuel ((c :: t).drop pat.length)
      else c :: replaceLF pat rep fuel t

def replaceL (pat rep : List Char) (s : List Char) : List Char :=
  replaceLF pat rep s.length s

/-- Python `str.replace` at the `String` level. -/
def replaceSub (s pat rep : String) : String :=
  String.mk (replaceL pat.data rep.data s.data)

/-- Everything after the first occurrence of `pat`, i.e. Python's
`s.split(pat, 1)[1]` (callers guard with `pat in s`; absent `pat` gives `[]`). -/
def afterFirstL (pat : List Char) : List Char → List Char
  | [] => []
  | s@(_ :: t) => if begsWith pat s then s.drop pat.length else afterFirstL pat t

/-- ASCII lower-casing, modelling `str.lower()` on ASCII input. -/
def lowerL (cs : List Char) : List Char := cs.map Char.toLower

/-- Contiguous slices of size `n` in order: Python's
`[l[i:i+n] for i in range(0, len(l), n)]` (returns `[]` for `n = 0`,
a case the Python code never reaches because batch sizes are ≥ 1). -/
def chunksOfF : Nat → Nat → List α → List (List α)
  | _, _, [] => []
  | _, 0, _ :: _ => []
  | 0, _ + 1, _ :: _ => []
  | fuel + 1, m + 1, x :: xs =>
    (x :: xs).take (m + 1) :: chunksOfF fuel (m + 1) ((x :: xs).drop (m + 1))

def chunksOf (n : Nat) (l : List α) : List (List α) := chunksOfF l.length n l

/-- Ceiling division `⌈a / b⌉` on naturals. -/
def cdiv (a b : Nat) : Nat := (a + b - 1) / b

/-- Decimal digit character for `d < 10`. -/
def digitCh (d : Nat) : Char := Char.ofNat (48 + d)

/-- Decimal digits of `n` prepended to `acc` (`fuel ≥ n` suffices since
`n / 10 < n` for positive `n`). -/
def natDigsF : Nat → Nat → List Char → List Char
  | _, 0, acc => acc
  | 0, _ + 1, acc => acc
  | fuel + 1, n + 1, acc => natDigsF fuel ((n + 1) / 10) (digitCh ((n + 1) % 10) :: acc)

/-- Decimal representation of a natural, modelling Python's `str(n)`. -/
def natStr (n : Nat) : List Char :=
  match n with
  | 0 => ['0']
  | m + 1 => natDigsF (m + 1) (m + 1) []

/-- `"\n".join` at the `String` level. -/
def joinNL (ls : List String) : String :=
  String.mk (joinSepL '\n' (ls.map String.data))

/-- `" ".join` at the `String` level (used to join continuation lines). -/
def joinSpace (ls : List String) : String :=
  String.mk (joinSepL ' ' (ls.map String.data))

/-! ## Response Parser: `parse_translations_list` (src/clean_data_utils.py:223)

The Python code first applies `re.search(r'\[.*?\]', text, re.DOTALL)` — the
substring from the first `[` to the first following `]` — and `eval`s it,
keeping the result only when it is a list (of strings, else the subsequent
`t.strip()` raises and the handler falls through).  `eval` is modelled by a
parser `pyEvalStrList` that accepts exactly the bracketed lists of quoted
string literals without escape sequences or embedded newlines; on any other
input the model returns `none`, as the Python code then either raises inside
`eval`, produces a non-list, or produces non-string elements — all of which
fall through to the aggressive branch. -/

/-- The match of `re.search(r'\[.*?\]', s, re.DOTALL)`: from the first `[`
to the first `]` after it (inclusive), if both exist. -/
def bracketSegmentL (cs : List Char) : Option (List Char) :=
  let a := cs.dropWhile (fun c => c ≠ '[')
  match a with
  | [] => none
  | _ :: _ =>
    if ']' ∈ a then some (a.takeWhile (fun c => c ≠ ']') ++ [']']) else none

/-- Parse one Python string literal (no escapes, no raw newline): returns the
content and the remaining characters. -/
def strLitL : List Char → Option (List Char × List Char)
  | [] => none
  | c :: rest =>
    if isQuoteChar c then
      let content := rest.takeWhile (fun x => x ≠ c && x ≠ '\\' && x ≠ '\n')
      match rest.drop content.length with
      | d :: r3 => if d = c then some (content, r3) else none
      | [] => none
    else none

/-- Parse the items of a list literal after the opening `[`; accepts an
optional trailing comma (as Python does), returns items and the rest after
the closing `]`. -/
def evalItemsAux : Nat → List Char → List String → Option (List String × List Char)
  | 0, _, _ => none
  | fuel + 1, cs, acc =>
    let cs := cs.dropWhile pyIsSpace
    match cs with
    | ']' :: rest => some (acc, rest)
    | _ =>
      match strLitL cs with
      | none => none
      | some (content, rest) =>
        match rest.dropWhile pyIsSpace with
        | ']' :: tail => some (acc ++ [String.mk content], tail)
        | ',' :: tail => evalItemsAux fuel tail (acc ++ [String.mk content])
        | _ => none

/-- Model of `eval(list_str)` restricted to the shapes the caller can use: a
list literal of plain string literals.  Any other input is `none` (in Python:
a raised exception, a non-list value, or non-string elements — all handled
identically by the caller's `except: pass`). -/
def pyEvalStrList (s : String) : Option (List String) :=
  match s.data.dropWhile pyIsSpace with
  | '[' :: rest =>
    match evalItemsAux (rest.length + 1) rest [] with
    | some (items, leftover) =>
      if leftover.dropWhile pyIsSpace = [] then some items else none
    | none => none
  | _ => none

/-- The bracketed-list branch of the parser: locate `[.*?]` and `eval` it. -/
def evalBranch (response : String) : Option (List String) :=
  (bracketSegmentL response.data).bind fun seg => pyEvalStrList (String.mk seg)

/-- `re.sub(r'^.*?\[', '[', s, re.DOTALL)`: drop everything before the first
`[` (no-op when there is no `[`). -/
def dropBeforeLB (cs : List Char) : List Char :=
  if '[' ∈ cs then cs.dropWhile (fun c => c ≠ '[') else cs

/-- `re.sub(r'\].*?$', ']', s, re.DOTALL)`: the match runs from the first `]`
to the end of the string (`$` can also match just before one final trailing
newline, which is then kept).  No-op when there is no `]`. -/
def cutAfterRB (cs : List Char) : List Char :=
  if ']' ∈ cs then
    let keep := cs.takeWhile (fun c => c ≠ ']') ++ [']']
    if cs.getLast? = some '\n' ∧ keep.length < cs.length then keep ++ ['\n'] else keep
  else cs

/-- The `clean_text` computed at src/clean_data_utils.py:243-245. -/
def cleanedText (response : String) : List Char :=
  cutAfterRB (dropBeforeLB
    (replaceL ("Here are the translations:".data) [] response.data))

/-- All matches of `re.findall(r'[\'"]([^\'"\n]+?)[\'"]', s)`: a quote, one or
more characters that are neither quote nor newline, then a quote (the two
quotes need not agree).  Scanned left to right, non-overlapping. -/
def findQuotedAux : Option (List Char) → List Char → List String
  | _, [] => []
  | none, c :: r =>
    if isQuoteChar c then findQuotedAux (some []) r else findQuotedAux none r
  | some acc, c :: r =>
    if isQuoteChar c then
      (if acc.isEmpty then findQuotedAux (some []) r
       else String.mk acc.reverse :: findQuotedAux none r)
    else if c = '\n' then findQuotedAux none r
    else findQuotedAux (some (c :: acc)) r

/-- The quoted-segment candidates of the aggressive branch (already stripped,
as at src/clean_data_utils.py:252). -/
def quotedCandidates (response : String) : List String :=
  (findQuotedAux none (cleanedText response)).map pyStrip

/-- The characters stripped from comma-split parts: `part.strip(' []\'\"')`. -/
def commaStripBag : List Char := [' ', '[', ']', quoteS, '"']

/-- The lower-confidence comma-split fallback (src/clean_data_utils.py:260-267):
split `clean_text` on commas, strip list punctuation, and keep parts that are
non-empty and do not start with "here"/"translation" (case-insensitive). -/
def commaFallback (ct : List Char) : List String :=
  (splitCharL ',' ct).filterMap fun part =>
    let p := stripCharsL part commaStripBag
    if p.isEmpty then none
    else if begsWith ("here".data) (lowerL p) || begsWith ("translation".data) (lowerL p)
    then none
    else some (String.mk p)

/-- `parse_translations_list` (src/clean_data_utils.py:223-269).  Branches:
bracketed-list `eval` first; else quoted-segment extraction over the cleaned
text, truncating when more than `expected` matches are found and falling back
to comma-splitting when fewer; an empty match list yields `[]`. -/
def parse_translations_list (response : String) (expected : Nat) : List String :=
  match evalBranch response with
  | some ts => ts.map pyStrip
  | none =>
    let ms := quotedCandidates response
    if ms.isEmpty then []
    else if expected < ms.length then ms.take expected
    else if ms.length < expected then commaFallback (cleanedText response)
    else ms

/-! ## Translation Backend Adapters (src/modules/translation.py)

The HTTP endpoints and the settings store are the environment; each adapter is
parameterised by an oracle giving, per request, either the payload the code
extracts from a 2xx JSON response (`some …`) or `none` for any failure the
code handles with `except` (network error, non-2xx, malformed JSON).  The
prompt-template formatting (`str.format` with the settings-provided template)
is likewise an opaque environment function. -/

/-- Environment of `GoogleTranslateService`: `verifyOk` is the outcome of
`_verify_api_key`; `batchRaw texts` is the list of `translatedText` entries of
a successful bulk response; `singleRaw text` the single `translatedText`. -/
structure GoogleEnv where
  verifyOk : Bool
  batchRaw : List String → Option (List String)
  singleRaw : String → Option String

/-- `GoogleTranslateService._translate_single` (translation.py:155-191):
strip the returned translation; any failure yields `""`. -/
def gSingle (env : GoogleEnv) (text : String) : String :=
  if text = "" then ""
  else
    match env.singleRaw text with
    | some r => pyStrip r
    | none => ""

/-- `GoogleTranslateService._translate_batch` (translation.py:193-229): map
`translatedText` entries through `strip`; on exception or malformed response
return `len(texts)` empty strings.  Note the success path returns however many
entries the provider sent back. -/
def gBatch (env : GoogleEnv) (texts : List String) : List String :=
  if texts.isEmpty then []
  else
    match env.batchRaw texts with
    | some rs => rs.map pyStrip
    | none => List.replicate texts.length ""

/-- `GoogleTranslateService.translate` (translation.py:74-153): verify the
key (returning all-empty on failure), strip inputs and drop the empty ones,
then either translate one by one or in chunks of `min(batch_size, 100)`,
falling back to single mode when a batch returns an empty list.  (The
outer `except` branch at lines 126-144 is unreachable in this model because
`_translate_single` and `_translate_batch` catch all their exceptions.) -/
def googleTranslate (env : GoogleEnv) (texts : List String)
    (batchMode : Bool) (batchSize : Nat) : List String :=
  if texts.isEmpty then []
  else if !env.verifyOk then List.replicate texts.length ""
  else
    let ts := (texts.map pyStrip).filter (fun t => t ≠ "")
    if ts.isEmpty then []
    else
      let bs := min batchSize 100
      if !batchMode || ts.length = 1 then ts.map (gSingle env)
      else
        (chunksOf bs ts).flatMap fun b =>
          let r := gBatch env b
          if r.isEmpty then b.map (gSingle env) else r

/-- Environment of `OllamaService`: `api prompt` is the `response` field of a
successful `/api/generate` call, `none` for any handled failure. -/
structure OllamaEnv where
  api : String → Option String

/-- Numbered lines `f"{i}. {text}"` starting at index `i` (translation.py:375
numbers from 1). -/
def numberedLines : Nat → List String → List String
  | _, [] => []
  | i, t :: rest => (String.mk (natStr i) ++ ". " ++ t) :: numberedLines (i + 1) rest

/-- The numbered batch blob `"\n".join(f"{i+1}. {text}" …)`. -/
def numberedBlob (ts : List String) : String := joinNL (numberedLines 1 ts)

/-- `OllamaService._translate_single` (translation.py:329-366): strip the
response; empty or failed results become `""`. -/
def oSingle (env : OllamaEnv) (fmt : String → String) (text : String) : String :=
  if text = "" then ""
  else
    match env.api (fmt text) with
    | some r => pyStrip r
    | none => ""

/-- Pad with `""` up to `n` entries, then truncate to `n`
(translation.py:435-439). -/
def fixCount (l : List String) (n : Nat) : List String :=
  (l ++ List.replicate (n - l.length) "").take n

/-- The numbered-line regrouping of `OllamaService._translate_batch`
(translation.py:400-422): lines starting with a digit and containing `". "`
start a new translation (the text after the first `". "`); other non-blank
lines are appended to the current group, groups joined with spaces. -/
def nsGo (done : List String) (cur : List String) : List (List Char) → List String
  | [] => if cur.isEmpty then done else done ++ [joinSpace cur]
  | l :: rest =>
    if (match l with | c :: _ => pyIsDigit c | [] => false) && containsL (". ".data) l then
      let tx := String.mk (afterFirstL (". ".data) l)
      if cur.isEmpty then nsGo done [tx] rest
      else nsGo (done ++ [joinSpace cur]) [tx] rest
    else nsGo done (cur ++ [String.mk l]) rest

/-- Split a response into translations by numbered lines (stripped, blank
lines dropped first, translation.py:401-422). -/
def numberedSplit (t : String) : List String :=
  nsGo [] [] (((splitCharL '\n' t.data).map stripL).filter (fun l => ¬l.isEmpty))

/-- `OllamaService._translate_batch` (translation.py:368-449): send the
numbered blob, regroup by numbered lines, fall back to plain non-blank line
splitting on count mismatch, then pad/truncate to exactly `len(texts)`;
exceptions yield `len(texts)` empty strings. -/
def oBatch (env : OllamaEnv) (fmt : String → String) (texts : List String) : List String :=
  if texts.isEmpty then []
  else
    match env.api (fmt (numberedBlob texts)) with
    | none => List.replicate texts.length ""
    | some resp =>
      let tl := pyStrip resp
      let t1 := numberedSplit tl
      let t2 :=
        if t1.length ≠ texts.length then
          (splitCharL '\n' tl.data).filterMap fun l =>
            let s := stripL l
            if s.isEmpty then none else some (String.mk s)
        else t1
      if t2.length ≠ texts.length then fixCount t2 texts.length else t2

/-- `OllamaService.translate` (translation.py:281-327): clean inputs, drop
empties, then single mode (for one text or `batch_mode=False`) or chunks of
`batch_size` with a single-mode fallback for a batch yielding an empty list. -/
def ollamaTranslate (env : OllamaEnv) (fmt : String → String) (texts : List String)
    (batchMode : Bool) (batchSize : Nat) : List String :=
  if texts.isEmpty then []
  else
    let ts := (texts.map pyStrip).filter (fun t => t ≠ "")
    if ts.isEmpty then []
    else
      if !batchMode || ts.length = 1 then ts.map (oSingle env fmt)
      else
        (chunksOf batchSize ts).flatMap fun b =>
          let r := oBatch env fmt b
          if r.isEmpty then b.map (oSingle env fmt) else r

/-! ## `translate_with_ollama` (src/clean_data_utils.py:272-355)

`post prompt` is the `response` field of a successful request (`none` models
any exception: network failure, non-2xx, missing field).  `fmt2 n texts`
models `prompt_template.format(batch_size=n, target_lang=…, instructions=…,
texts=texts)` with the fixed language/instruction arguments folded in. -/

/-- The retry emphasis (clean_data_utils.py:311-315): on retry `k ≥ 1`, append
`k` exclamation marks to the `Rules:`/`items` keywords and prepend the strict
mode banner to the freshly formatted prompt. -/
def emphasize (p : String) (k : Nat) : String :=
  if k = 0 then p
  else
    let e := String.mk (List.replicate k '!')
    "STRICT MODE: YOU MUST RETURN EXACTLY THE RIGHT NUMBER OF TRANSLATIONS!\n" ++
      replaceSub (replaceSub p "Rules:" ("Rules" ++ e ++ ":")) "items" ("items" ++ e)

/-- The formatted batch prompt: indexed texts joined by newlines, passed to
the template (clean_data_utils.py:297-308). -/
def owBasePrompt (fmt2 : Nat → String → String) (b : List String) : String :=
  fmt2 b.length (joinNL (numberedLines 1 b))

/-- The per-batch retry loop of `translate_with_ollama`
(clean_data_utils.py:295-353): attempt `k` uses the `k`-times emphasized
prompt; a parse-count mismatch or request exception retries while attempts
remain (`budget` counts remaining attempts, `max_retries + 1` initially) and
otherwise raises (`none`).  Returns the prompts sent and the final outcome. -/
def owAttempt (post : String → Option String) (base : String) (n : Nat) :
    Nat → Nat → List String × Option (List String)
  | 0, _ => ([], none)
  | budget + 1, k =>
    let p := emphasize base k
    match post p with
    | none =>
      if budget = 0 then ([p], none)
      else
        let r := owAttempt post base n budget (k + 1)
        (p :: r.1, r.2)
    | some resp =>
      let ts := parse_translations_list resp n
      if ts.length = n then ([p], some ts)
      else if budget = 0 then ([p], none)
      else
        let r := owAttempt post base n budget (k + 1)
        (p :: r.1, r.2)

/-- `translate_with_ollama` (clean_data_utils.py:272-355): process the texts
in batches; a batch whose retries are exhausted raises, aborting the whole
call (`none`); otherwise the per-batch results are concatenated in order. -/
def translate_with_ollama (post : String → Option String) (fmt2 : Nat → String → String)
    (texts : List String) (batchSize maxRetries : Nat) : Option (List String) :=
  (chunksOf batchSize texts).foldl
    (fun acc b =>
      match acc with
      | none => none
      | some l =>
        match (owAttempt post (owBasePrompt fmt2 b) b.length (maxRetries + 1) 0).2 with
        | none => none
        | some ts => some (l ++ ts))
    (some [])

/-! ## `translate_with_llm`, `translate_with_google`, `translate_column`
(src/clean_data_utils.py:173-221, 358-425) -/

/-- `translate_with_llm` (clean_data_utils.py:358-400): one call per text, but
only when `service` is exactly `'OpenAI'` or `'DeepSeek'`; a non-200 response
or exception appends nothing.  `oa`/`ds` are the chat-completion content
oracles for the two providers, `fmt1` the single-text prompt template. -/
def translate_with_llm (oa ds : String → Option String) (fmt1 : String → String)
    (texts : List String) (service : String) : List String :=
  texts.foldl
    (fun acc t =>
      if service = "OpenAI" then
        match oa (fmt1 t) with
        | some r => acc ++ [pyStrip r]
        | none => acc
      else if service = "DeepSeek" then
        match ds (fmt1 t) with
        | some r => acc ++ [pyStrip r]
        | none => acc
      else acc)
    []

/-- `translate_with_google` in clean_data_utils.py:403-425 (the utils-level
variant): one call per text, appending the raw `translatedText` on a 200
response and skipping the text otherwise. -/
def translate_with_google_u (g : String → Option String) (texts : List String) : List String :=
  texts.foldl
    (fun acc t =>
      match g t with
      | some r => acc ++ [r]
      | none => acc)
    []

/-! ## Layer Store and `TranslationTask.run` (src/modules/translation.py:451-702)

The QGIS layer is modelled as a table: field names and features with one
optional string attribute per field (a `none` attribute is a NULL value).
QGIS feature ids are unique per layer; the Python code relies on this when it
keys `feature_map` by id, and the model represents the map as the snapshot
list in iteration order.  The edit session is modelled explicitly: the layer
value at `startEditing` is the rollback target; `changeAttributeValue`
mutates the working copy; `commitChanges` hands the working copy to the
provider (whose behaviour is the `commitResult` oracle) or fails. -/

structure VFeature where
  fid : Nat
  attrs : List (Option String)
deriving DecidableEq, Repr

structure VLayer where
  fieldNames : List String
  feats : List VFeature
deriving DecidableEq, Repr

/-- `layer.fields().indexOf(name)`: index of a field, `none` for -1. -/
def fieldIdx (M : VLayer) (name : String) : Option Nat :=
  M.fieldNames.findIdx? (fun f => f = name)

/-- `layer.addAttribute(QgsField(name, String))` committed: append the field
with NULL values. -/
def addAttr (M : VLayer) (name : String) : VLayer :=
  ⟨M.fieldNames ++ [name], M.feats.map fun f => ⟨f.fid, f.attrs ++ [none]⟩⟩

/-- The attribute of a feature at a field index (NULL when out of range). -/
def attrAt (f : VFeature) (idx : Nat) : Option String := f.attrs.getD idx none

/-- `layer.changeAttributeValue(fid, idx, v)` on the edit buffer. -/
def setVal (M : VLayer) (fid idx : Nat) (v : String) : VLayer :=
  ⟨M.fieldNames,
   M.feats.map fun f => if f.fid = fid then ⟨f.fid, f.attrs.set idx (some v)⟩ else f⟩

/-- `TranslationTask._should_skip_text` (translation.py:488-501): skip NULL or
blank source text, text in the skip set, or a feature whose target already
holds a truthy value with non-blank strip. -/
def shouldSkipF (skipVals : List String) (src tgt : Option String) : Bool :=
  match src with
  | none => true
  | some s =>
    if pyStrip s = "" then true
    else if pyStrip s ∈ skipVals then true
    else
      match tgt with
      | none => false
      | some t => t ≠ "" && pyStrip t ≠ ""

/-- The parse of the dialog's comma-separated skip values
(translation.py:476-478). -/
def parseSkipValues : Option String → List String
  | none => []
  | some s => (splitCharL ',' s.data).map fun p => String.mk (stripL p)

/-- The Preparing snapshot (translation.py:534-556): iterate features in
layer order, skip per `_should_skip_text`, and record `(fid, stripped source
text)` for the rest. -/
def snapshotOf (skipVals : List String) (M : VLayer) (sidx tidx : Nat) :
    List (Nat × String) :=
  M.feats.filterMap fun f =>
    if shouldSkipF skipVals (attrAt f sidx) (attrAt f tidx) then none
    else some (f.fid, pyStrip ((attrAt f sidx).getD ""))

/-- The ids accumulated in `self.skipped_features`. -/
def skippedIdsOf (skipVals : List String) (M : VLayer) (sidx tidx : Nat) : List Nat :=
  (M.feats.filter fun f => shouldSkipF skipVals (attrAt f sidx) (attrAt f tidx)).map (·.fid)

/-- The effective batch size of the run loop: `__init__` clamps the request to
5 (translation.py:468) and `run` clamps it again to 2 (translation.py:575). -/
def effBatch (batchSize : Nat) : Nat := min 2 (min batchSize 5)

/-- The batches the run loop dispatches (translation.py:584-599): chunks of 25
feature ids, re-chunked into batches of the effective batch size. -/
def dispatchBatches (bs : Nat) (snap : List (Nat × String)) :
    List (List (Nat × String)) :=
  (chunksOf 25 snap).flatMap (chunksOf bs)

/-- Environment and simulated provider behaviour of one task run.  `svc` is
the adapter call for one batch: `.ok translations` on return, `.error msg` on
exception (the code inspects `str(e)` for `'403'`).  `commitOk` is the return
value of `commitChanges`; `commitResult` is the provider's stored state after
a nominally successful commit (identity for a healthy provider — the oracle
lets corruption at translation.py:682-687 be simulated). -/
structure TaskCfg where
  svc : List String → Except String (List String)
  commitOk : Bool
  commitResult : VLayer → VLayer
  skipVals : List String
  batchSize : Nat

/-- Write one translated batch into the edit buffer (translation.py:614-626):
`zip` pairs ids with translations, only truthy translations are written, and
the translated counter advances per successful write. -/
def writeBatch (M : VLayer) (tidx : Nat) (pairs : List (Nat × String)) : VLayer × Nat :=
  pairs.foldl
    (fun acc p => if p.2 ≠ "" then (setVal acc.1 p.1 tidx p.2, acc.2 + 1) else acc)
    (M, 0)

/-- Outcome of the batch loop: `aborted` is the 403 path
(translation.py:644-655, rollback and fail), `done` reaches the commit. -/
inductive LoopOut where
  | aborted (failed : List Nat) (tcount : Nat)
  | done (cur : VLayer) (failed : List Nat) (tcount : Nat)
deriving DecidableEq, Repr

/-- The batch loop of `TranslationTask.run` (translation.py:593-662): per
batch, call the adapter; on success write translations; on exception append
the whole batch's ids to `failed_features` and continue — unless the message
contains `'403'`, which rolls back and aborts. -/
def runBatches (cfg : TaskCfg) (tidx : Nat) :
    VLayer → List Nat → Nat → List (List (Nat × String)) → LoopOut
  | cur, failed, tc, [] => .done cur failed tc
  | cur, failed, tc, b :: rest =>
    match cfg.svc (b.map (·.2)) with
    | .ok ts =>
      let w := writeBatch cur tidx ((b.map (·.1)).zip ts)
      runBatches cfg tidx w.1 failed (tc + w.2) rest
    | .error m =>
      if containsSub m "403" then .aborted (failed ++ b.map (·.1)) tc
      else runBatches cfg tidx cur (failed ++ b.map (·.1)) tc rest

/-- Result of one task run: `ok` is the boolean returned by `run`, `layer`
the store state afterwards, plus the bookkeeping lists the task keeps. -/
structure RunResult where
  ok : Bool
  layer : VLayer
  failed : List Nat
  skippedIds : List Nat
  tcount : Nat
  rolledBack : Bool
deriving DecidableEq, Repr

/-- Target-field resolution (translation.py:516-523): reuse an existing
target field, else append it in a separately committed edit; returns the
layer afterwards and the target field index. -/
def prepTarget (L : VLayer) (targetField : String) : VLayer × Nat :=
  match fieldIdx L targetField with
  | some t => (L, t)
  | none => (addAttr L targetField, L.fieldNames.length)

/-- `TranslationTask.run` (translation.py:503-702): resolve fields (creating
the target field in its own committed edit), snapshot with skip semantics,
return success immediately when nothing is to translate, else run the batch
loop inside an edit session and commit; a failed commit or a post-commit
feature-count mismatch rolls back and fails. -/
def taskRun (cfg : TaskCfg) (L : VLayer) (sourceField targetField : String) : RunResult :=
  match fieldIdx L sourceField with
  | none => ⟨false, L, [], [], 0, false⟩
  | some sidx =>
    let p := prepTarget L targetField
    let L1 := p.1
    let tidx := p.2
    let initialCount := L1.feats.length
    let snap := snapshotOf cfg.skipVals L1 sidx tidx
    let skipped := skippedIdsOf cfg.skipVals L1 sidx tidx
    if snap.isEmpty then ⟨true, L1, [], skipped, 0, false⟩
    else
      match runBatches cfg tidx L1 [] 0 (dispatchBatches (effBatch cfg.batchSize) snap) with
      | .aborted failed tc => ⟨false, L1, failed, skipped, tc, true⟩
      | .done cur failed tc =>
        if cfg.commitOk then
          let L2 := cfg.commitResult cur
          if L2.feats.length ≠ initialCount then ⟨false, L2, failed, skipped, tc, true⟩
          else ⟨true, L2, failed, skipped, tc, false⟩
        else ⟨false, L1, failed, skipped, tc, true⟩

/-- `translate_column` (src/clean_data_utils.py:173-221): add the new field,
collect truthy source values in feature order, dispatch on the service name,
and zip the translations back onto the collected feature ids (`zip` stops at
the shorter list).  A raised exception (unknown service, or exhausted Ollama
retries) is caught and returns `False` with no value written. -/
structure UtilsEnv where
  oa : String → Option String
  ds : String → Option String
  goo : String → Option String
  ollamaPost : String → Option String

def translate_column (env : UtilsEnv) (fmt1 : String → String)
    (fmt2 : Nat → String → String) (L : VLayer)
    (fieldName newFieldName service : String) (batchSize maxRetries : Nat) :
    Bool × VLayer :=
  let L1 := addAttr L newFieldName
  match fieldIdx L1 fieldName, fieldIdx L1 newFieldName with
  | some fidx, some nidx =>
    let pairs := L1.feats.filterMap fun f =>
      match attrAt f fidx with
      | some t => if t ≠ "" then some (f.fid, t) else none
      | none => none
    let texts := pairs.map (·.2)
    let trs : Option (List String) :=
      if service = "Google Translate" then some (translate_with_google_u env.goo texts)
      else if service = "OpenAI" then some (translate_with_llm env.oa env.ds fmt1 texts "openai")
      else if service = "DeepSeek" then some (translate_with_llm env.oa env.ds fmt1 texts "deepseek")
      else if service = "Ollama" then translate_with_ollama env.ollamaPost fmt2 texts batchSize maxRetries
      else none
    match trs with
    | none => (false, L1)
    | some ts =>
      (true, ((pairs.map (·.1)).zip ts).foldl (fun M q => setVal M q.1 nidx q.2) L1)
  | _, _ => (false, L1)

/-! ## Concrete environments and inputs used by counterexamples and witnesses -/

/-- An input list with one blank entry, for the adapter length property. -/
def exTextsBlank : List String := ["a", " "]

/-- A healthy Google environment that prefixes every translation with `G`. -/
def exGEnv : GoogleEnv :=
  ⟨true, fun b => some (b.map (fun t => "G" ++ t)), fun t => some ("G" ++ t)⟩

/-- An Ollama environment answering every prompt with the fixed text `X`. -/
def exOEnvConst : OllamaEnv := ⟨fun _ => some "X"⟩

/-- A response with four quoted segments (the parser's aggressive branch). -/
def exRespFour : String := "'a' 'b' 'c' 'd'"

/-- A response whose first bracketed segment is junk but which contains the
well-formed list literal afterwards. -/
def exRespShadowed : String := "[x] then ['a','b','c']"

/-- A post oracle for `translate_with_ollama` that answers only the first
batch prompt of the batch `["y"]` and fails every other prompt. -/
def exPostY : String → Option String :=
  fun p => if p = "1. y" then some "[\"Y\"]" else none

/-- An identity-like batch prompt template (drops the count argument). -/
def exFmt2Id : Nat → String → String := fun _ t => t

/-- A three-feature layer: field 0 is the source, field 1 the empty target. -/
def exLayer3 : VLayer :=
  ⟨["name", "name_ar"],
   [⟨1, [some "one", none]⟩, ⟨2, [some "two", none]⟩, ⟨3, [some "three", none]⟩]⟩

/-- A task configuration with an echoing adapter and batch size 3. -/
def exCfgEcho : TaskCfg :=
  ⟨fun ts => .ok (ts.map (fun t => "T" ++ t)), true, id, [], 3⟩

/-- The echoing configuration with a failing `commitChanges`. -/
def exCfgNoCommit : TaskCfg :=
  ⟨fun ts => .ok (ts.map (fun t => "T" ++ t)), false, id, [], 3⟩

/-- The echoing configuration whose provider loses all features on commit. -/
def exCfgCorrupt : TaskCfg :=
  ⟨fun ts => .ok (ts.map (fun t => "T" ++ t)), true, fun _ => ⟨[], []⟩, [], 3⟩

/-- A configuration whose adapter always raises a non-authentication error. -/
def exCfgErr : TaskCfg := ⟨fun _ => .error "boom", true, id, [], 3⟩

/-- A one-feature layer whose target value is already populated, plus one
translatable feature and one blank-source feature. -/
def exLayerMixed : VLayer :=
  ⟨["name", "name_ar"],
   [⟨1, [some "one", some "T one"]⟩, ⟨2, [some "two", none]⟩, ⟨3, [some " ", none]⟩]⟩

/-- The `failed_features` list carried by a loop outcome. -/
def failedOf : LoopOut → List Nat
  | .aborted f _ => f
  | .done _ f _ => f

/-! ## General lemmas -/

theorem strMk_data (s : String) : String.mk s.data = s := rfl

theorem data_strMk (l : List Char) : (String.mk l).data = l := rfl

theorem chunksOfF_fuel_irrel :
    ∀ (f1 f2 n : Nat) (l : List α), l.length ≤ f1 → l.length ≤ f2 →
      chunksOfF f1 n l = chunksOfF f2 n l := by
  intro f1
  induction f1 with
  | zero =>
    intro f2 n l h1 h2
    have : l = [] := List.length_eq_zero.mp (Nat.le_zero.mp h1)
    subst this
    cases f2 <;> cases n <;> rfl
  | succ f ih =>
    intro f2 n l h1 h2
    cases l with
    | nil => cases f2 <;> cases n <;> rfl
    | cons x xs =>
      cases n with
      | zero => cases f2 with
        | zero => simp at h2
        | succ f2 => rfl
      | succ m =>
        cases f2 with
        | zero => simp at h2
        | succ f2' =>
          show ((x :: xs).take (m + 1) :: chunksOfF f (m + 1) ((x :: xs).drop (m + 1))) =
            ((x :: xs).take (m + 1) :: chunksOfF f2' (m + 1) ((x :: xs).drop (m + 1)))
          have hd : ((x :: xs).drop (m + 1)).length ≤ f := by
            simp only [List.length_drop, List.length_cons] at h1 ⊢
            omega
          have hd2 : ((x :: xs).drop (m + 1)).length ≤ f2' := by
            simp only [List.length_drop, List.length_cons] at h2 ⊢
            omega
          rw [ih f2' (m + 1) _ hd hd2]

theorem chunksOf_cons_eq (m : Nat) (x : α) (xs : List α) :
    chunksOf (m + 1) (x :: xs) =
      (x :: xs).take (m + 1) :: chunksOf (m + 1) ((x :: xs).drop (m + 1)) := by
  have h2 : chunksOf (m + 1) (x :: xs) =
      (x :: xs).take (m + 1) :: chunksOfF xs.length (m + 1) ((x :: xs).drop (m + 1)) := rfl
  rw [h2]
  congr 1
  apply chunksOfF_fuel_irrel <;> simp only [List.length_drop, List.length_cons] <;> omega

theorem chunks_flatten_bounded (n : Nat) (hn : n ≠ 0) :
    ∀ (N : Nat) (l : List α), l.length ≤ N → (chunksOf n l).flatten = l := by
  intro N
  induction N with
  | zero =>
    intro l hl
    have : l = [] := List.length_eq_zero.mp (Nat.le_zero.mp hl)
    subst this; simp [chunksOf, chunksOfF]
  | succ N ih =>
    intro l hl
    cases l with
    | nil => simp [chunksOf, chunksOfF]
    | cons x xs =>
      obtain ⟨m, rfl⟩ : ∃ m, n = m + 1 := ⟨n - 1, by omega⟩
      rw [chunksOf_cons_eq, List.flatten_cons,
        ih ((x :: xs).drop (m + 1))
          (by simp only [List.length_drop, List.length_cons] at hl ⊢; omega)]
      exact List.take_append_drop _ _

theorem chunks_flatten (n : Nat) (hn : n ≠ 0) (l : List α) :
    (chunksOf n l).flatten = l :=
  chunks_flatten_bounded n hn l.length l le_rfl

theorem cdiv_step (a n : Nat) (hn : n ≠ 0) (ha : 1 ≤ a) :
    cdiv a n = 1 + cdiv (a - n) n := by
  unfold cdiv
  have h0 : 0 < n := Nat.pos_of_ne_zero hn
  have e1 : a + n - 1 = a - 1 + n := by omega
  rw [e1, Nat.add_div_right _ h0]
  rcases le_or_lt a n with h | h
  · have h1 : a - n = 0 := by omega
    rw [h1]
    have d1 : (a - 1) / n = 0 := Nat.div_eq_of_lt (by omega)
    have d2 : (0 + n - 1) / n = 0 := Nat.div_eq_of_lt (by omega)
    omega
  · have e2 : a - n + n - 1 = a - n - 1 + n := by omega
    rw [e2, Nat.add_div_right _ h0]
    have e3 : (a - 1) / n = (a - n - 1) / n + 1 := by
      have e4 : a - 1 = a - n - 1 + n := by omega
      rw [e4, Nat.add_div_right _ h0]
    omega

theorem chunks_length_bounded (n : Nat) (hn : n ≠ 0) :
    ∀ (N : Nat) (l : List α), l.length ≤ N → (chunksOf n l).length = cdiv l.length n := by
  intro N
  induction N with
  | zero =>
    intro l hl
    have : l = [] := List.length_eq_zero.mp (Nat.le_zero.mp hl)
    subst this
    simp only [chunksOf, chunksOfF, List.length_nil, cdiv]
    exact (Nat.div_eq_of_lt (by omega)).symm
  | succ N ih =>
    intro l hl
    cases l with
    | nil =>
      simp only [chunksOf, chunksOfF, List.length_nil, cdiv]
      exact (Nat.div_eq_of_lt (by omega)).symm
    | cons x xs =>
      obtain ⟨m, rfl⟩ : ∃ m, n = m + 1 := ⟨n - 1, by omega⟩
      rw [chunksOf_cons_eq]
      simp only [List.length_cons]
      rw [ih ((x :: xs).drop (m + 1))
          (by simp only [List.length_drop, List.length_cons] at hl ⊢; omega)]
      rw [cdiv_step (xs.length + 1) (m + 1) hn (by omega)]
      simp only [List.length_drop, List.length_cons]
      omega

theorem chunks_length (n : Nat) (hn : n ≠ 0) (l : List α) :
    (chunksOf n l).length = cdiv l.length n :=
  chunks_length_bounded n hn l.length l le_rfl

theorem chunks_mem_ne_nil (n : Nat) (hn : n ≠ 0) :
    ∀ (N : Nat) (l : List α), l.length ≤ N → ∀ b ∈ chunksOf n l, b ≠ [] := by
  intro N
  induction N with
  | zero =>
    intro l hl
    have : l = [] := List.length_eq_zero.mp (Nat.le_zero.mp hl)
    subst this; simp [chunksOf, chunksOfF]
  | succ N ih =>
    intro l hl b hb
    cases l with
    | nil => simp [chunksOf, chunksOfF] at hb
    | cons x xs =>
      obtain ⟨m, rfl⟩ : ∃ m, n = m + 1 := ⟨n - 1, by omega⟩
      rw [chunksOf_cons_eq] at hb
      rcases List.mem_cons.mp hb with h | h
      · subst h; simp
      · exact ih ((x :: xs).drop (m + 1))
          (by simp only [List.length_drop, List.length_cons] at hl ⊢; omega) b h

theorem chunks_mem_subset (n : Nat) (hn : n ≠ 0) (l : List α) (b : List α)
    (hb : b ∈ chunksOf n l) : ∀ x ∈ b, x ∈ l := by
  intro x hx
  have : x ∈ (chunksOf n l).flatten := List.mem_flatten.mpr ⟨b, hb, hx⟩
  rwa [chunks_flatten n hn l] at this

theorem flatMap_congr_mem (L : List (List α)) (body body2 : List α → List β)
    (h : ∀ b ∈ L, body b = body2 b) : L.flatMap body = L.flatMap body2 := by
  induction L with
  | nil => rfl
  | cons b bs ih =>
    simp only [List.flatMap_cons]
    rw [h b (by simp), ih (fun c hc => h c (by simp [hc]))]

theorem flatMap_chunks_map (n : Nat) (hn : n ≠ 0) (l : List α)
    (body : List α → List β) (fn : α → β)
    (h : ∀ b ∈ chunksOf n l, body b = b.map fn) :
    (chunksOf n l).flatMap body = l.map fn := by
  rw [flatMap_congr_mem _ body (fun b => b.map fn) h, List.flatMap_def,
    ← List.map_flatten, chunks_flatten n hn l]


/-! ## Retry loop lemmas (`translate_with_ollama`) -/

theorem owAttempt_spec (post : String → Option String) (base : String) (n : Nat) :
    ∀ budget k,
      ((owAttempt post base n budget k).1).length ≤ budget ∧
      ((owAttempt post base n budget k).2 = none →
        ((owAttempt post base n budget k).1).length = budget) ∧
      (budget ≠ 0 → (owAttempt post base n budget k).1 ≠ []) ∧
      ∀ i, i < ((owAttempt post base n budget k).1).length →
        ((owAttempt post base n budget k).1).get? i = some (emphasize base (k + i)) := by
  intro budget
  induction budget with
  | zero =>
    intro k
    refine ⟨by simp [owAttempt], fun _ => by simp [owAttempt], fun h => absurd rfl h,
      fun i hi => ?_⟩
    simp [owAttempt] at hi
  | succ b ih =>
    intro k
    have hstep : ∀ heq : owAttempt post base n (b + 1) k = ([emphasize base k], none) ∨
        (∃ ts, owAttempt post base n (b + 1) k = ([emphasize base k], some ts)) ∨
        owAttempt post base n (b + 1) k =
          (emphasize base k :: (owAttempt post base n b (k + 1)).1,
            (owAttempt post base n b (k + 1)).2), True := fun _ => trivial
    clear hstep
    have key : owAttempt post base n (b + 1) k = ([emphasize base k], none) ∧ b = 0 ∨
        (∃ ts, owAttempt post base n (b + 1) k = ([emphasize base k], some ts)) ∨
        owAttempt post base n (b + 1) k =
          (emphasize base k :: (owAttempt post base n b (k + 1)).1,
            (owAttempt post base n b (k + 1)).2) ∧ b ≠ 0 := by
      cases hpost : post (emphasize base k) with
      | none =>
        by_cases hb : b = 0
        · exact Or.inl ⟨by simp [owAttempt, hpost, hb], hb⟩
        · exact Or.inr (Or.inr ⟨by simp [owAttempt, hpost, hb], hb⟩)
      | some resp =>
        by_cases hlen : (parse_translations_list resp n).length = n
        · exact Or.inr (Or.inl ⟨parse_translations_list resp n, by simp [owAttempt, hpost, hlen]⟩)
        · by_cases hb : b = 0
          · exact Or.inl ⟨by simp [owAttempt, hpost, hlen, hb], hb⟩
          · exact Or.inr (Or.inr ⟨by simp [owAttempt, hpost, hlen, hb], hb⟩)
    rcases key with ⟨heq, hb⟩ | ⟨ts, heq⟩ | ⟨heq, hb⟩
    · subst hb
      rw [heq]
      refine ⟨by simp, fun _ => by simp, fun _ => by simp, fun i hi => ?_⟩
      simp only [List.length_singleton] at hi
      obtain rfl : i = 0 := by omega
      simp
    · rw [heq]
      refine ⟨by simp, fun hres => by simp at hres, fun _ => by simp, fun i hi => ?_⟩
      simp only [List.length_singleton] at hi
      obtain rfl : i = 0 := by omega
      simp
    · obtain ⟨ih1, ih2, _, ih4⟩ := ih (k + 1)
      rw [heq]
      refine ⟨by simpa using Nat.succ_le_succ ih1, fun hres => ?_, fun _ => by simp,
        fun i hi => ?_⟩
      · simpa using ih2 hres
      · cases i with
        | zero => simp
        | succ j =>
          simp only [List.length_cons, Nat.succ_lt_succ_iff] at hi
          simp only [List.get?_cons_succ]
          rw [ih4 j hi]
          congr 2
          omega

/-- C3: for every batch whose adapter call fails or whose parsed translation
count differs from the batch size, `translate_with_ollama` retries the whole
batch at most 2 more times (3 attempts total, exactly 3 when the batch is
given up), the first attempt uses the unmodified formatted prompt, and the
k-th retry prepends the strict-mode banner and appends k `!` marks to the
`Rules:` and `items` keywords of the freshly formatted prompt. -/
theorem C3_retry_emphasis (post : String → Option String)
    (fmt2 : Nat → String → String) (b : List String) :
    ((owAttempt post (owBasePrompt fmt2 b) b.length (2 + 1) 0).1).length ≤ 2 + 1 ∧
    ((owAttempt post (owBasePrompt fmt2 b) b.length (2 + 1) 0).2 = none →
      ((owAttempt post (owBasePrompt fmt2 b) b.length (2 + 1) 0).1).length = 2 + 1) ∧
    ((owAttempt post (owBasePrompt fmt2 b) b.length (2 + 1) 0).1).get? 0 =
      some (owBasePrompt fmt2 b) ∧
    ∀ k, 1 ≤ k → k < ((owAttempt post (owBasePrompt fmt2 b) b.length (2 + 1) 0).1).length →
      ((owAttempt post (owBasePrompt fmt2 b) b.length (2 + 1) 0).1).get? k =
        some ("STRICT MODE: YOU MUST RETURN EXACTLY THE RIGHT NUMBER OF TRANSLATIONS!\n" ++
          replaceSub (replaceSub (owBasePrompt fmt2 b) "Rules:"
            ("Rules" ++ String.mk (List.replicate k '!') ++ ":"))
            "items" ("items" ++ String.mk (List.replicate k '!'))) := by
  obtain ⟨h1, h2, h3, h4⟩ := owAttempt_spec post (owBasePrompt fmt2 b) b.length (2 + 1) 0
  refine ⟨h1, h2, ?_, fun k hk1 hk2 => ?_⟩
  · have hne : (owAttempt post (owBasePrompt fmt2 b) b.length (2 + 1) 0).1 ≠ [] :=
      h3 (by omega)
    have hlen : 0 < ((owAttempt post (owBasePrompt fmt2 b) b.length (2 + 1) 0).1).length :=
      List.length_pos.mpr hne
    rw [h4 0 hlen]
    simp [emphasize]
  · rw [h4 k hk2]
    have hk : k ≠ 0 := by omega
    simp only [Nat.zero_add, emphasize, if_neg hk]

/-- C3 witness: a concrete always-failing oracle on a one-text batch; the
second attempt (first retry) carries the strict-mode banner and one `!`. -/
theorem C3_witness :
    ((owAttempt (fun _ => none) (owBasePrompt exFmt2Id ["x"]) 1 (2 + 1) 0).1).get? 1 =
      some ("STRICT MODE: YOU MUST RETURN EXACTLY THE RIGHT NUMBER OF TRANSLATIONS!\n" ++
        replaceSub (replaceSub (owBasePrompt exFmt2Id ["x"]) "Rules:"
          ("Rules" ++ String.mk (List.replicate 1 '!') ++ ":"))
          "items" ("items" ++ String.mk (List.replicate 1 '!'))) :=
  (C3_retry_emphasis (fun _ => none) exFmt2Id ["x"]).2.2.2 1 (by norm_num) (by decide)

/-- C1 counterexample: both adapters drop blank texts before translating, so
an input list containing a whitespace-only entry yields a strictly shorter
output even though every call succeeds. -/
theorem C1_counterexample :
    exTextsBlank ≠ [] ∧
    (googleTranslate exGEnv exTextsBlank true 50).length ≠ exTextsBlank.length ∧
    (ollamaTranslate exOEnvConst (fun t => t) exTextsBlank true 5).length ≠
      exTextsBlank.length := by
  decide

/-- C2 counterexample: on a response with four quoted segments and
`expected_count = 3` the parser silently truncates to the first three (a
"successful-looking" list, not an insufficiency signal), and
`OllamaService._translate_batch`'s count fix pads a 2-element result to 3
with an empty string. -/
theorem C2_counterexample :
    quotedCandidates exRespFour = ["a", "b", "c", "d"] ∧
    parse_translations_list exRespFour 3 = ["a", "b", "c"] ∧
    parse_translations_list exRespFour 4 = ["a", "b", "c", "d"] ∧
    fixCount ["x", "y"] 3 = ["x", "y", ""] := by
  decide

/-- C2 (amended): the pipeline does not return an explicit insufficiency
marker: `OllamaService._translate_batch` always pads/truncates to exactly the
batch size, and `parse_translations_list` truncates the quoted-segment
candidates to `expected_count` whenever it finds more than that; a shorter
candidate list falls through to the comma fallback and the resulting
wrong-length list is what the caller detects. -/
theorem C2_truncation_behaviour :
    (∀ (l : List String) (n : Nat), (fixCount l n).length = n) ∧
    ∀ (r : String) (n : Nat), evalBranch r = none → quotedCandidates r ≠ [] →
      n < (quotedCandidates r).length →
      parse_translations_list r n = (quotedCandidates r).take n := by
  constructor
  · intro l n
    simp only [fixCount, List.length_take, List.length_append, List.length_replicate]
    omega
  · intro r n he hq hlt
    have h1 : (quotedCandidates r).isEmpty = false := by
      cases hcc : quotedCandidates r with
      | nil => exact absurd hcc hq
      | cons a l => rfl
    simp only [parse_translations_list, he, h1, Bool.false_eq_true, if_false, if_pos hlt]

/-- C2 witness: the amended truncation property at the concrete four-segment
response with `expected_count = 3`. -/
theorem C2_witness :
    parse_translations_list exRespFour 3 = (quotedCandidates exRespFour).take 3 :=
  C2_truncation_behaviour.2 exRespFour 3 (by decide) (by decide) (by decide)

/-- C4 counterexample: in the `translate_with_ollama` pipeline a batch whose
retries are exhausted raises and aborts the whole call (`none`) instead of
recording the batch as failed and continuing — here batch `["x"]` always
fails while batch `["y"]` would succeed on its first attempt. -/
theorem C4_counterexample :
    translate_with_ollama exPostY exFmt2Id ["x", "y"] 1 2 = none ∧
    (owAttempt exPostY (owBasePrompt exFmt2Id ["y"]) 1 (2 + 1) 0).2 = some ["Y"] := by
  decide

/-- C6 counterexample: for a snapshot of 3 texts and requested batch size 3
the claim predicts `ceil(3/3) = 1` batch, but the run loop clamps the batch
size to `min(2, min(3, 5)) = 2` and dispatches 2 batches. -/
theorem C6_counterexample :
    (snapshotOf [] exLayer3 0 1).length = 3 ∧
    (dispatchBatches (effBatch 3) (snapshotOf [] exLayer3 0 1)).length = 2 ∧
    cdiv (snapshotOf [] exLayer3 0 1).length 3 = 1 := by
  decide

/-- C9 counterexample: a response that contains the well-formed literal
`['a','b','c']` but whose first bracketed segment is `[x]`; `eval` fails on
`[x]`, the aggressive branch cuts the text down to `[x]`, and the parser
returns `[]` rather than `['a','b','c']`. -/
theorem C9_counterexample :
    containsSub exRespShadowed "['a','b','c']" = true ∧
    parse_translations_list exRespShadowed 3 = [] := by
  decide

theorem llm_other_service (oa ds : String → Option String) (fmt1 : String → String)
    (svc : String) (h1 : svc ≠ "OpenAI") (h2 : svc ≠ "DeepSeek") (ts : List String) :
    translate_with_llm oa ds fmt1 ts svc = [] := by
  unfold translate_with_llm
  have hgen : ∀ (l : List String) (acc : List String),
      l.foldl (fun acc t =>
        if svc = "OpenAI" then
          match oa (fmt1 t) with
          | some r => acc ++ [pyStrip r]
          | none => acc
        else if svc = "DeepSeek" then
          match ds (fmt1 t) with
          | some r => acc ++ [pyStrip r]
          | none => acc
        else acc) acc = acc := by
    intro l
    induction l with
    | nil => intro acc; rfl
    | cons t l ih =>
      intro acc
      rw [List.foldl_cons, if_neg h1, if_neg h2]
      exact ih acc
  exact hgen ts []

/-- C10: `translate_column` dispatches the lowercase tags `'openai'` and
`'deepseek'` to `translate_with_llm`, which sends requests only when its
service argument is exactly `'OpenAI'`/`'DeepSeek'`; hence those two paths
return an empty translation list and write no feature value (the layer keeps
only the freshly added empty column). -/
theorem C10_case_mismatch (env : UtilsEnv) (fmt1 : String → String)
    (fmt2 : Nat → String → String) (L : VLayer) (fieldName newFieldName : String)
    (bs mr : Nat) (texts : List String) :
    translate_with_llm env.oa env.ds fmt1 texts "openai" = [] ∧
    translate_with_llm env.oa env.ds fmt1 texts "deepseek" = [] ∧
    (translate_column env fmt1 fmt2 L fieldName newFieldName "OpenAI" bs mr).2 =
      addAttr L newFieldName ∧
    (translate_column env fmt1 fmt2 L fieldName newFieldName "DeepSeek" bs mr).2 =
      addAttr L newFieldName := by
  refine ⟨llm_other_service _ _ _ _ (by decide) (by decide) _,
    llm_other_service _ _ _ _ (by decide) (by decide) _, ?_, ?_⟩
  · unfold translate_column
    cases hf : fieldIdx (addAttr L newFieldName) fieldName with
    | none =>
      cases hn : fieldIdx (addAttr L newFieldName) newFieldName <;> simp [hf]
    | some fidx =>
      cases hn : fieldIdx (addAttr L newFieldName) newFieldName with
      | none => simp [hf, hn]
      | some nidx =>
        simp only [hf, hn]
        rw [llm_other_service env.oa env.ds fmt1 "openai" (by decide) (by decide)]
        simp [List.zip_nil_right]
  · unfold translate_column
    cases hf : fieldIdx (addAttr L newFieldName) fieldName with
    | none =>
      cases hn : fieldIdx (addAttr L newFieldName) newFieldName <;> simp [hf]
    | some fidx =>
      cases hn : fieldIdx (addAttr L newFieldName) newFieldName with
      | none => simp [hf, hn]
      | some nidx =>
        simp only [hf, hn]
        rw [llm_other_service env.oa env.ds fmt1 "deepseek" (by decide) (by decide)]
        simp [List.zip_nil_right]

theorem dropWhile_all_append (p : Char → Bool) (l r : List Char)
    (h : ∀ c ∈ l, p c = true) : List.dropWhile p (l ++ r) = List.dropWhile p r := by
  induction l with
  | nil => rfl
  | cons c t ih =>
    rw [List.cons_append, List.dropWhile_cons, if_pos (h c (by simp))]
    exact ih fun d hd => h d (by simp [hd])

/-- C9 (amended): when no `[` occurs before the well-formed literal
`['a','b','c']`, the regex's bracketed segment is exactly the literal, `eval`
succeeds, and the parse with `expected_count = 3` is `['a','b','c']`. -/
theorem C9_bracket_parse (pre post : String) (hpre : '[' ∉ pre.data) :
    parse_translations_list (pre ++ "['a','b','c']" ++ post) 3 = ["a", "b", "c"] := by
  have hdata : (pre ++ "['a','b','c']" ++ post).data =
      pre.data ++ ("['a','b','c']".data ++ post.data) := by
    simp [String.data_append]
  have hseg : bracketSegmentL (pre ++ "['a','b','c']" ++ post).data =
      some ("['a','b','c']".data) := by
    rw [hdata]
    unfold bracketSegmentL
    rw [dropWhile_all_append _ pre.data _
      (fun c hc => by
        have : c ≠ '[' := fun hEq => hpre (hEq ▸ hc)
        simp [this])]
    simp only [List.dropWhile_cons]
    norm_num [List.takeWhile_cons]
    decide
  have heval : pyEvalStrList (String.mk ("['a','b','c']".data)) = some ["a", "b", "c"] := by
    decide
  simp only [parse_translations_list, evalBranch, hseg, Option.some_bind, heval]
  decide

/-- C9 witness: a response with leading prose (no bracket) around the
literal parses to exactly the three items. -/
theorem C9_witness :
    parse_translations_list ("Here: " ++ "['a','b','c']" ++ " done.") 3 = ["a", "b", "c"] :=
  C9_bracket_parse "Here: " " done." (by decide)

/-! ## Task batch loop lemmas -/

theorem runBatches_failed_mono (cfg : TaskCfg) (tidx : Nat) :
    ∀ (batches : List (List (Nat × String))) (cur : VLayer) (failed : List Nat) (tc : Nat),
      ∀ i ∈ failed, i ∈ failedOf (runBatches cfg tidx cur failed tc batches) := by
  intro batches
  induction batches with
  | nil => intro cur failed tc i hi; exact hi
  | cons b rest ih =>
    intro cur failed tc i hi
    show i ∈ failedOf (runBatches cfg tidx cur failed tc (b :: rest))
    unfold runBatches
    cases hsvc : cfg.svc (b.map (·.2)) with
    | ok ts => exact ih _ _ _ i hi
    | error m =>
      by_cases h4 : containsSub m "403"
      · simp only [h4, if_true, failedOf]
        exact List.mem_append_left _ hi
      · simp only [h4, if_false]
        exact ih _ _ _ i (List.mem_append_left _ hi)

/-- C4 (amended): in the `TranslationTask.run` batch loop, a batch whose
adapter call raises a non-authentication error has all its feature ids
appended to `failed_features` and the loop continues unchanged with the
remaining batches; those ids stay in the final failed list.  (A message
containing `'403'` instead aborts the task, and in the
`translate_with_ollama` pipeline exhausted retries raise, aborting the whole
call — see the counterexample.) -/
theorem C4_batch_failure_semantics (cfg : TaskCfg) (tidx : Nat) (cur : VLayer)
    (failed : List Nat) (tc : Nat) (b : List (Nat × String))
    (rest : List (List (Nat × String))) (m : String)
    (he : cfg.svc (b.map (·.2)) = .error m) (h403 : containsSub m "403" = false) :
    runBatches cfg tidx cur failed tc (b :: rest) =
      runBatches cfg tidx cur (failed ++ b.map (·.1)) tc rest ∧
    ∀ i ∈ b.map (·.1), i ∈ failedOf (runBatches cfg tidx cur failed tc (b :: rest)) := by
  have h1 : runBatches cfg tidx cur failed tc (b :: rest) =
      (match cfg.svc (b.map (·.2)) with
       | .ok ts =>
         runBatches cfg tidx (writeBatch cur tidx ((b.map (·.1)).zip ts)).1 failed
           (tc + (writeBatch cur tidx ((b.map (·.1)).zip ts)).2) rest
       | .error m =>
         if containsSub m "403" then LoopOut.aborted (failed ++ b.map (·.1)) tc
         else runBatches cfg tidx cur (failed ++ b.map (·.1)) tc rest) := rfl
  have hstep : runBatches cfg tidx cur failed tc (b :: rest) =
      runBatches cfg tidx cur (failed ++ b.map (·.1)) tc rest := by
    rw [h1, he]
    simp only [h403, Bool.false_eq_true, if_false]
  refine ⟨hstep, fun i hi => ?_⟩
  rw [hstep]
  exact runBatches_failed_mono cfg tidx rest cur (failed ++ b.map (·.1)) tc i
    (List.mem_append_right _ hi)

/-- C4 witness: a concrete always-failing non-403 adapter; the failed batch's
id is recorded and the loop proceeds to the second batch. -/
theorem C4_witness :
    runBatches exCfgErr 1 exLayer3 [] 0 [[(1, "one")], [(2, "two")]] =
      runBatches exCfgErr 1 exLayer3 ([] ++ [(1, "one")].map (·.1)) 0 [[(2, "two")]] ∧
    ∀ i ∈ [(1, "one")].map (·.1),
      i ∈ failedOf (runBatches exCfgErr 1 exLayer3 [] 0 [[(1, "one")], [(2, "two")]]) :=
  C4_batch_failure_semantics exCfgErr 1 exLayer3 [] 0 [(1, "one")] [[(2, "two")]]
    "boom" rfl (by decide)

theorem prepTarget_cases (L : VLayer) (tf : String) :
    (prepTarget L tf).1 = L ∨ (prepTarget L tf).1 = addAttr L tf := by
  unfold prepTarget
  cases fieldIdx L tf <;> simp

theorem attrAt_append_none (f : VFeature) (i : Nat) :
    List.getD (f.attrs ++ [none]) i none = List.getD f.attrs i none := by
  rw [List.getD_eq_getElem?_getD, List.getD_eq_getElem?_getD, List.getElem?_append]
  by_cases hlen : i < f.attrs.length
  · rw [if_pos hlen]
  · rw [if_neg hlen]
    have h1 : f.attrs[i]? = none := List.getElem?_eq_none (by omega)
    rw [h1]
    by_cases h0 : i - f.attrs.length = 0
    · rw [h0]; rfl
    · have h2 : ([(none : Option String)])[i - f.attrs.length]? = none :=
        List.getElem?_eq_none (by simp; omega)
      rw [h2]

theorem prep_preserve (L : VLayer) (tf : String) :
    (prepTarget L tf).1.feats.length = L.feats.length ∧
    ∀ j, ((prepTarget L tf).1.feats.get? j).map (·.fid) = (L.feats.get? j).map (·.fid) ∧
      ∀ i, ((prepTarget L tf).1.feats.get? j).map (fun f => attrAt f i) =
        (L.feats.get? j).map (fun f => attrAt f i) := by
  rcases prepTarget_cases L tf with h | h <;> rw [h]
  · exact ⟨rfl, fun j => ⟨rfl, fun i => rfl⟩⟩
  · unfold addAttr
    refine ⟨by simp, fun j => ⟨?_, fun i => ?_⟩⟩
    · show ((L.feats.map _).get? j).map _ = _
      rw [List.get?_map]
      cases L.feats.get? j <;> simp
    · show ((L.feats.map _).get? j).map _ = _
      rw [List.get?_map]
      cases L.feats.get? j with
      | none => simp
      | some f =>
        simp only [Option.map_some, Option.map_map]
        show some (attrAt ⟨f.fid, f.attrs ++ [none]⟩ i) = some (attrAt f i)
        unfold attrAt
        rw [attrAt_append_none]

theorem taskRun_commit_false (cfg : TaskCfg) (L : VLayer) (sf tf : String)
    (sidx : Nat) (hs : fieldIdx L sf = some sidx)
    (hsnap : snapshotOf cfg.skipVals (prepTarget L tf).1 sidx (prepTarget L tf).2 ≠ [])
    (hc : cfg.commitOk = false) :
    (taskRun cfg L sf tf).ok = false ∧ (taskRun cfg L sf tf).rolledBack = true ∧
    (taskRun cfg L sf tf).layer = (prepTarget L tf).1 := by
  unfold taskRun
  rw [hs]
  have hempty : (snapshotOf cfg.skipVals (prepTarget L tf).1 sidx
      (prepTarget L tf).2).isEmpty = false := by
    cases hcc : snapshotOf cfg.skipVals (prepTarget L tf).1 sidx (prepTarget L tf).2 with
    | nil => exact absurd hcc hsnap
    | cons a l => rfl
  simp only [hempty, Bool.false_eq_true, if_false]
  cases hout : runBatches cfg (prepTarget L tf).2 (prepTarget L tf).1 [] 0
      (dispatchBatches (effBatch cfg.batchSize)
        (snapshotOf cfg.skipVals (prepTarget L tf).1 sidx (prepTarget L tf).2)) with
  | aborted fl tc => simp [hout]
  | done cur fl tc => simp [hout, hc]

/-- C5: when `commitChanges` fails the task rolls back to the state at
`startEditing` (the layer as prepared, with no batch write surviving), the
run returns `False`, the feature count equals the pre-task count, and every
pre-existing feature keeps its id and all its attribute values. -/
theorem C5_commit_failure_rollback (cfg : TaskCfg) (L : VLayer) (sf tf : String)
    (sidx : Nat) (hs : fieldIdx L sf = some sidx)
    (hsnap : snapshotOf cfg.skipVals (prepTarget L tf).1 sidx (prepTarget L tf).2 ≠ [])
    (hc : cfg.commitOk = false) :
    (taskRun cfg L sf tf).ok = false ∧
    (taskRun cfg L sf tf).rolledBack = true ∧
    (taskRun cfg L sf tf).layer.feats.length = L.feats.length ∧
    ∀ j, ((taskRun cfg L sf tf).layer.feats.get? j).map (·.fid) =
        (L.feats.get? j).map (·.fid) ∧
      ∀ i, ((taskRun cfg L sf tf).layer.feats.get? j).map (fun f => attrAt f i) =
        (L.feats.get? j).map (fun f => attrAt f i) := by
  obtain ⟨h1, h2, h3⟩ := taskRun_commit_false cfg L sf tf sidx hs hsnap hc
  obtain ⟨p1, p2⟩ := prep_preserve L tf
  rw [h3]
  exact ⟨h1, h2, p1, p2⟩

/-- C5 witness: the echoing adapter over the three-feature layer with a
failing commit. -/
theorem C5_witness :
    (taskRun exCfgNoCommit exLayer3 "name" "name_ar").ok = false ∧
    (taskRun exCfgNoCommit exLayer3 "name" "name_ar").rolledBack = true ∧
    (taskRun exCfgNoCommit exLayer3 "name" "name_ar").layer.feats.length =
      exLayer3.feats.length :=
  ⟨(C5_commit_failure_rollback exCfgNoCommit exLayer3 "name" "name_ar" 0
      (by decide) (by decide) rfl).1,
   (C5_commit_failure_rollback exCfgNoCommit exLayer3 "name" "name_ar" 0
      (by decide) (by decide) rfl).2.1,
   (C5_commit_failure_rollback exCfgNoCommit exLayer3 "name" "name_ar" 0
      (by decide) (by decide) rfl).2.2.1⟩

theorem runBatches_no403 (cfg : TaskCfg) (tidx : Nat)
    (h403 : ∀ ts m, cfg.svc ts = .error m → containsSub m "403" = false) :
    ∀ (batches : List (List (Nat × String))) (cur : VLayer) (failed : List Nat) (tc : Nat),
      ∃ cur2 fl tc2, runBatches cfg tidx cur failed tc batches = .done cur2 fl tc2 := by
  intro batches
  induction batches with
  | nil => intro cur failed tc; exact ⟨cur, failed, tc, rfl⟩
  | cons b rest ih =>
    intro cur failed tc
    have h1 : runBatches cfg tidx cur failed tc (b :: rest) =
        (match cfg.svc (b.map (·.2)) with
         | .ok ts =>
           runBatches cfg tidx (writeBatch cur tidx ((b.map (·.1)).zip ts)).1 failed
             (tc + (writeBatch cur tidx ((b.map (·.1)).zip ts)).2) rest
         | .error m =>
           if containsSub m "403" then LoopOut.aborted (failed ++ b.map (·.1)) tc
           else runBatches cfg tidx cur (failed ++ b.map (·.1)) tc rest) := rfl
    cases hsvc : cfg.svc (b.map (·.2)) with
    | ok ts =>
      rw [h1, hsvc]
      exact ih _ _ _
    | error m =>
      rw [h1, hsvc]
      simp only [h403 _ _ hsvc, Bool.false_eq_true, if_false]
      exact ih _ _ _

/-- C7: after a nominally successful commit the task compares the store's
feature count with the count taken before editing; when the store (here: a
corrupting provider) reports a different count, the task invokes rollback
and returns `False` even though commit succeeded. -/
theorem C7_post_commit_check (cfg : TaskCfg) (L : VLayer) (sf tf : String)
    (sidx : Nat) (hs : fieldIdx L sf = some sidx)
    (hsnap : snapshotOf cfg.skipVals (prepTarget L tf).1 sidx (prepTarget L tf).2 ≠ [])
    (hok : cfg.commitOk = true)
    (h403 : ∀ ts m, cfg.svc ts = .error m → containsSub m "403" = false)
    (hcor : ∀ M : VLayer, (cfg.commitResult M).feats.length ≠ L.feats.length) :
    (taskRun cfg L sf tf).ok = false ∧ (taskRun cfg L sf tf).rolledBack = true := by
  unfold taskRun
  rw [hs]
  have hempty : (snapshotOf cfg.skipVals (prepTarget L tf).1 sidx
      (prepTarget L tf).2).isEmpty = false := by
    cases hcc : snapshotOf cfg.skipVals (prepTarget L tf).1 sidx (prepTarget L tf).2 with
    | nil => exact absurd hcc hsnap
    | cons a l => rfl
  simp only [hempty, Bool.false_eq_true, if_false]
  obtain ⟨cur2, fl, tc2, hout⟩ := runBatches_no403 cfg (prepTarget L tf).2 h403
    (dispatchBatches (effBatch cfg.batchSize)
      (snapshotOf cfg.skipVals (prepTarget L tf).1 sidx (prepTarget L tf).2))
    (prepTarget L tf).1 [] 0
  rw [hout]
  have hcount : (cfg.commitResult cur2).feats.length ≠ (prepTarget L tf).1.feats.length := by
    rw [(prep_preserve L tf).1]
    exact hcor cur2
  simp [hok, hcount]

/-- C7 witness: a provider that drops every feature on commit forces the
post-commit count check to fail the task. -/
theorem C7_witness :
    (taskRun exCfgCorrupt exLayer3 "name" "name_ar").ok = false ∧
    (taskRun exCfgCorrupt exLayer3 "name" "name_ar").rolledBack = true :=
  C7_post_commit_check exCfgCorrupt exLayer3 "name" "name_ar" 0 (by decide) (by decide)
    rfl (fun ts m h => by simp [exCfgCorrupt] at h) (fun M => by simp [exCfgCorrupt, exLayer3])

theorem shouldSkip_some (skips : List String) (s : String) (tgt : Option String) :
    shouldSkipF skips (some s) tgt =
      (if pyStrip s = "" then true
       else if pyStrip s ∈ skips then true
       else
         match tgt with
         | none => false
         | some t => t ≠ "" && pyStrip t ≠ "") := rfl

theorem cond_implies_skip (skips : List String) (src tgt : Option String)
    (h : (∀ s, src = some s → pyStrip s = "") ∨ (∃ t, tgt = some t ∧ pyStrip t ≠ "")) :
    shouldSkipF skips src tgt = true := by
  cases src with
  | none => rfl
  | some s =>
    rw [shouldSkip_some]
    rcases h with h1 | h2
    · rw [if_pos (h1 s rfl)]
    · by_cases hps : pyStrip s = ""
      · rw [if_pos hps]
      · rw [if_neg hps]
        by_cases hin : pyStrip s ∈ skips
        · rw [if_pos hin]
        · rw [if_neg hin]
          obtain ⟨t, rfl, hpt⟩ := h2
          have ht : t ≠ "" := by
            intro he
            subst he
            exact hpt (by decide)
          simp [ht, hpt]

theorem skip_notin_snapshot (skips : List String) (M : VLayer) (sidx tidx : Nat)
    (f : VFeature) (hnd : (M.feats.map (·.fid)).Nodup) (hf : f ∈ M.feats)
    (hskip : shouldSkipF skips (attrAt f sidx) (attrAt f tidx) = true) :
    f.fid ∉ (snapshotOf skips M sidx tidx).map (·.1) := by
  intro hmem
  rw [List.mem_map] at hmem
  obtain ⟨pair, hpair, hfid⟩ := hmem
  rw [snapshotOf, List.mem_filterMap] at hpair
  obtain ⟨g, hg, hgp⟩ := hpair
  by_cases hgskip : shouldSkipF skips (attrAt g sidx) (attrAt g tidx) = true
  · rw [if_pos hgskip] at hgp
    exact Option.noConfusion hgp
  · rw [if_neg hgskip] at hgp
    have hpg : pair = (g.fid, pyStrip ((attrAt g sidx).getD "")) := (Option.some.inj hgp).symm
    have hfe : g.fid = f.fid := by rw [← hfid, hpg]
    have : g = f := List.inj_on_of_nodup_map hnd hg hf hfe
    subst this
    exact hgskip hskip

/-- C8: the Preparing snapshot skips every feature whose source field is
NULL/blank and every feature whose target field already holds a non-blank
value; in particular, after a first task run, a second run on the result
layer (with distinct feature ids, as QGIS guarantees) never re-snapshots —
hence never retranslates — a row whose target is already populated. -/
theorem C8_skip_idempotence (cfg cfg2 : TaskCfg) (L : VLayer) (sf tf tf2 : String)
    (sidx tidx : Nat) (f : VFeature)
    (hnd : (((prepTarget (taskRun cfg L sf tf).layer tf2).1).feats.map (·.fid)).Nodup)
    (hf : f ∈ ((prepTarget (taskRun cfg L sf tf).layer tf2).1).feats)
    (hcond : (∀ s, attrAt f sidx = some s → pyStrip s = "") ∨
      (∃ t, attrAt f tidx = some t ∧ pyStrip t ≠ "")) :
    f.fid ∉ (snapshotOf cfg2.skipVals ((prepTarget (taskRun cfg L sf tf).layer tf2).1)
      sidx tidx).map (·.1) :=
  skip_notin_snapshot _ _ _ _ f hnd hf (cond_implies_skip _ _ _ hcond)

/-- C8 witness: after an echoing first run over the mixed layer, the feature
whose target was already populated is excluded from a second run's snapshot. -/
theorem C8_witness :
    (⟨1, [some "one", some "T one"]⟩ : VFeature).fid ∉
      (snapshotOf ([] : List String)
        ((prepTarget (taskRun exCfgEcho exLayerMixed "name" "name_ar").layer
          "name_ar").1) 0 1).map (·.1) :=
  C8_skip_idempotence exCfgEcho
    ⟨fun ts => .ok ts, true, id, [], 3⟩ exLayerMixed "name" "name_ar" "name_ar" 0 1
    ⟨1, [some "one", some "T one"]⟩ (by decide) (by decide)
    (Or.inr ⟨"T one", by decide, by decide⟩)

/-- C6 (amended): the run loop splits the snapshot into 25-feature chunks
and each chunk into batches of the clamped size `min(2, min(B, 5))`; the
dispatched batches concatenate back to the snapshot in order (contiguous,
strictly increasing slices), and their number is the sum over chunks of
`ceil(chunkLen / min(2, min(B, 5)))` — not `ceil(N / B)`. -/
theorem C6_batching_layout (B : Nat) (hB : 1 ≤ B) (skips : List String) (M : VLayer)
    (sidx tidx : Nat) :
    (dispatchBatches (effBatch B) (snapshotOf skips M sidx tidx)).flatten =
      snapshotOf skips M sidx tidx ∧
    (dispatchBatches (effBatch B) (snapshotOf skips M sidx tidx)).length =
      ((chunksOf 25 (snapshotOf skips M sidx tidx)).map
        (fun c => cdiv c.length (effBatch B))).sum := by
  have hbs : effBatch B ≠ 0 := by unfold effBatch; omega
  constructor
  · unfold dispatchBatches
    have haux : ∀ cs : List (List (Nat × String)),
        ((cs.flatMap (chunksOf (effBatch B))).flatten) = cs.flatten := by
      intro cs
      induction cs with
      | nil => rfl
      | cons c cs ih =>
        rw [List.flatMap_cons, List.flatten_append, ih, chunks_flatten _ hbs,
          List.flatten_cons]
    rw [haux, chunks_flatten 25 (by norm_num)]
  · unfold dispatchBatches
    rw [List.length_flatMap]
    congr 1
    apply List.map_congr_left
    intro c _
    show (chunksOf (effBatch B) c).length = cdiv c.length (effBatch B)
    exact chunks_length _ hbs c

/-- C6 witness: the layout property at the concrete three-feature snapshot
with requested batch size 3. -/
theorem C6_witness :
    (dispatchBatches (effBatch 3) (snapshotOf [] exLayer3 0 1)).flatten =
      snapshotOf [] exLayer3 0 1 :=
  (C6_batching_layout 3 (by norm_num) [] exLayer3 0 1).1

/-! ## Lemmas about decimal numbering and the Ollama numbered-line format -/

theorem digitCh_facts (d : Nat) (hd : d < 10) :
    pyIsDigit (digitCh d) = true ∧ pyIsSpace (digitCh d) = false ∧
    digitCh d ≠ '\n' ∧ digitCh d ≠ '.' := by
  interval_cases d <;> exact ⟨by decide, by decide, by decide, by decide⟩

theorem natDigsF_mem :
    ∀ (fuel n : Nat) (acc : List Char) (c : Char),
      c ∈ natDigsF fuel n acc → c ∈ acc ∨ ∃ d, d < 10 ∧ c = digitCh d := by
  intro fuel
  induction fuel with
  | zero =>
    intro n acc c hc
    cases n with
    | zero => exact Or.inl hc
    | succ m => exact Or.inl hc
  | succ f ih =>
    intro n acc c hc
    cases n with
    | zero => exact Or.inl hc
    | succ m =>
      rcases ih ((m + 1) / 10) (digitCh ((m + 1) % 10) :: acc) c hc with h | h
      · rcases List.mem_cons.mp h with h1 | h1
        · exact Or.inr ⟨(m + 1) % 10, Nat.mod_lt _ (by norm_num), h1⟩
        · exact Or.inl h1
      · exact Or.inr h

theorem natStr_mem_digit (n : Nat) (c : Char) (hc : c ∈ natStr n) : pyIsDigit c = true := by
  cases n with
  | zero =>
    simp only [natStr] at hc
    rcases List.mem_singleton.mp hc with rfl
    decide
  | succ m =>
    rcases natDigsF_mem (m + 1) (m + 1) [] c hc with h | ⟨d, hd, rfl⟩
    · simp at h
    · exact (digitCh_facts d hd).1

theorem natDigsF_ne_nil :
    ∀ (fuel n : Nat) (acc : List Char), acc ≠ [] ∨ (n ≠ 0 ∧ fuel ≠ 0) →
      natDigsF fuel n acc ≠ [] := by
  intro fuel
  induction fuel with
  | zero =>
    intro n acc h
    cases n with
    | zero => exact h.elim id (fun h2 => absurd rfl h2.2)
    | succ m => exact h.elim id (fun h2 => absurd rfl h2.2)
  | succ f ih =>
    intro n acc h
    cases n with
    | zero => exact h.elim id (fun h2 => absurd rfl h2.1)
    | succ m => exact ih ((m + 1) / 10) (digitCh ((m + 1) % 10) :: acc) (Or.inl (by simp))

theorem natStr_ne_nil (n : Nat) : natStr n ≠ [] := by
  cases n with
  | zero => simp [natStr]
  | succ m => exact natDigsF_ne_nil (m + 1) (m + 1) [] (Or.inr ⟨by omega, by omega⟩)

theorem splitCharL_ne_nil (sep : Char) : ∀ l : List Char, splitCharL sep l ≠ [] := by
  intro l
  cases l with
  | nil => simp [splitCharL]
  | cons c t =>
    show (match splitCharL sep t with
      | [] => [[]]
      | g :: gs => if c = sep then [] :: g :: gs else (c :: g) :: gs) ≠ []
    cases splitCharL sep t with
    | nil => simp
    | cons g gs =>
      by_cases hc : c = sep <;> simp [hc]

theorem splitCharL_nosep (sep : Char) :
    ∀ l : List Char, sep ∉ l → splitCharL sep l = [l] := by
  intro l
  induction l with
  | nil => intro _; rfl
  | cons c t ih =>
    intro h
    have hc : c ≠ sep := fun he => h (by simp [he])
    have ht : sep ∉ t := fun he => h (by simp [he])
    show (match splitCharL sep t with
      | [] => [[]]
      | g :: gs => if c = sep then [] :: g :: gs else (c :: g) :: gs) = [c :: t]
    rw [ih ht]
    simp [hc]

theorem splitCharL_append_sep (sep : Char) :
    ∀ (l r : List Char), sep ∉ l →
      splitCharL sep (l ++ sep :: r) = l :: splitCharL sep r := by
  intro l
  induction l with
  | nil =>
    intro r _
    show (match splitCharL sep r with
      | [] => [[]]
      | g :: gs => if sep = sep then [] :: g :: gs else (sep :: g) :: gs) = [] :: splitCharL sep r
    cases hsp : splitCharL sep r with
    | nil => exact absurd hsp (splitCharL_ne_nil sep r)
    | cons g gs => simp
  | cons c t ih =>
    intro r h
    have hc : c ≠ sep := fun he => h (by simp [he])
    have ht : sep ∉ t := fun he => h (by simp [he])
    show (match splitCharL sep (t ++ sep :: r) with
      | [] => [[]]
      | g :: gs => if c = sep then [] :: g :: gs else (c :: g) :: gs) =
      (c :: t) :: splitCharL sep r
    rw [ih r ht]
    simp [hc]

theorem splitCharL_joinSep (sep : Char) :
    ∀ parts : List (List Char), parts ≠ [] → (∀ p ∈ parts, sep ∉ p) →
      splitCharL sep (joinSepL sep parts) = parts := by
  intro parts
  induction parts with
  | nil => intro h _; exact absurd rfl h
  | cons p ps ih =>
    intro _ hall
    cases ps with
    | nil => exact splitCharL_nosep sep p (hall p (by simp))
    | cons q qs =>
      show splitCharL sep (p ++ sep :: joinSepL sep (q :: qs)) = p :: (q :: qs)
      rw [splitCharL_append_sep sep p _ (hall p (by simp))]
      rw [ih (by simp) (fun x hx => hall x (by simp [hx]))]

theorem dropWhile_le_length (p : Char → Bool) :
    ∀ l : List Char, (l.dropWhile p).length ≤ l.length := by
  intro l
  induction l with
  | nil => simp
  | cons c t ih =>
    rw [List.dropWhile_cons]
    by_cases hp : p c = true
    · rw [if_pos hp]
      simp only [List.length_cons]
      omega
    · rw [if_neg hp]

theorem dropWhile_eq_self_of_length (p : Char → Bool) :
    ∀ l : List Char, (l.dropWhile p).length = l.length → l.dropWhile p = l := by
  intro l
  cases l with
  | nil => intro _; rfl
  | cons c t =>
    intro h
    rw [List.dropWhile_cons] at h ⊢
    by_cases hp : p c = true
    · rw [if_pos hp] at h
      have hle := dropWhile_le_length p t
      simp only [List.length_cons] at h
      omega
    · rw [if_neg hp]

theorem stripL_eq_self (cs : List Char)
    (h1 : ∀ a, cs.head? = some a → pyIsSpace a = false)
    (h2 : ∀ z, cs.getLast? = some z → pyIsSpace z = false) : stripL cs = cs := by
  unfold stripL
  cases cs with
  | nil => rfl
  | cons c t =>
    rw [List.dropWhile_cons, if_neg (by rw [h1 c rfl]; simp)]
    cases hr : (c :: t).reverse with
    | nil => simp at hr
    | cons z rest =>
      have hz : (c :: t).getLast? = some z := by
        rw [← List.head?_reverse, hr]
        rfl
      have hstep : List.dropWhile pyIsSpace (z :: rest) = z :: rest := by
        rw [List.dropWhile_cons, if_neg (by rw [h2 z hz]; simp)]
      rw [hstep, ← hr, List.reverse_reverse]

theorem last_not_space_of_strip_eq (cs : List Char) (h : stripL cs = cs) :
    ∀ z, cs.getLast? = some z → pyIsSpace z = false := by
  intro z hz
  unfold stripL at h
  have hlen2 : ((cs.dropWhile pyIsSpace).reverse.dropWhile pyIsSpace).length = cs.length := by
    rw [← List.length_reverse ((cs.dropWhile pyIsSpace).reverse.dropWhile pyIsSpace), h]
  have hle1 : (cs.dropWhile pyIsSpace).length ≤ cs.length := dropWhile_le_length _ cs
  have hle2 : ((cs.dropWhile pyIsSpace).reverse.dropWhile pyIsSpace).length ≤
      (cs.dropWhile pyIsSpace).reverse.length := dropWhile_le_length _ _
  rw [List.length_reverse] at hle2
  have hd1len : (cs.dropWhile pyIsSpace).length = cs.length := by omega
  have hd1 : cs.dropWhile pyIsSpace = cs := dropWhile_eq_self_of_length _ cs hd1len
  rw [hd1] at h
  have hrev : cs.reverse.dropWhile pyIsSpace = cs.reverse := by
    have h3 := congrArg List.reverse h
    rwa [List.reverse_reverse] at h3
  cases hr : cs.reverse with
  | nil =>
    rw [← List.head?_reverse, hr] at hz
    simp at hz
  | cons a rest =>
    have ha : a = z := by
      rw [← List.head?_reverse, hr] at hz
      exact Option.some.inj hz
    subst ha
    rw [hr, List.dropWhile_cons] at hrev
    by_cases hp : pyIsSpace a = true
    · rw [if_pos hp] at hrev
      have hle3 := dropWhile_le_length pyIsSpace rest
      have hlen3 := congrArg List.length hrev
      simp only [List.length_cons] at hlen3
      omega
    · simpa using hp

theorem joinSep_cons (sep : Char) (l : List Char) (q : List Char) (qs : List (List Char)) :
    joinSepL sep (l :: q :: qs) = l ++ sep :: joinSepL sep (q :: qs) := rfl

theorem joinSep_ne_nil (sep : Char) :
    ∀ ls : List (List Char), ls ≠ [] → (∀ p ∈ ls, p ≠ []) → joinSepL sep ls ≠ [] := by
  intro ls
  cases ls with
  | nil => intro h _; exact absurd rfl h
  | cons p ps =>
    intro _ hall
    cases ps with
    | nil => exact hall p (by simp)
    | cons q qs =>
      rw [joinSep_cons]
      cases hp : p with
      | nil => simp
      | cons a t => simp

theorem joinSep_head (sep : Char) (l : List Char) (ls : List (List Char)) (hl : l ≠ []) :
    (joinSepL sep (l :: ls)).head? = l.head? := by
  cases ls with
  | nil => rfl
  | cons q qs =>
    rw [joinSep_cons, List.head?_append]
    cases hh : l.head? with
    | none =>
      cases l with
      | nil => exact absurd rfl hl
      | cons a t => simp at hh
    | some a => rfl

theorem joinSep_getLast (sep : Char) :
    ∀ (ls : List (List Char)) (l : List Char), (∀ p ∈ ls ++ [l], p ≠ []) →
      (joinSepL sep (ls ++ [l])).getLast? = l.getLast? := by
  intro ls
  induction ls with
  | nil => intro l _; rfl
  | cons p ps ih =>
    intro l hall
    have hjoin : joinSepL sep (p :: (ps ++ [l])) = p ++ sep :: joinSepL sep (ps ++ [l]) := by
      cases ps <;> rfl
    show (joinSepL sep (p :: (ps ++ [l]))).getLast? = l.getLast?
    rw [hjoin, List.getLast?_append]
    have hjs : joinSepL sep (ps ++ [l]) ≠ [] :=
      joinSep_ne_nil sep (ps ++ [l]) (by simp) (fun x hx => hall x (by simp at hx ⊢; tauto))
    have hih : (joinSepL sep (ps ++ [l])).getLast? = l.getLast? :=
      ih l (fun x hx => hall x (by simp at hx ⊢; tauto))
    have hcons : (sep :: joinSepL sep (ps ++ [l])).getLast? =
        (joinSepL sep (ps ++ [l])).getLast? := by
      have h1 : sep :: joinSepL sep (ps ++ [l]) = [sep] ++ joinSepL sep (ps ++ [l]) := rfl
      rw [h1, List.getLast?_append]
      cases hj : (joinSepL sep (ps ++ [l])).getLast? with
      | none =>
        cases hjj : joinSepL sep (ps ++ [l]) with
        | nil => exact absurd hjj hjs
        | cons a t =>
          rw [hjj] at hj
          simp [List.getLast?_eq_getLast] at hj
      | some a => rfl
    rw [hcons, hih]
    have hlast : l.getLast? ≠ none := by
      have hlne : l ≠ [] := hall l (by simp)
      cases hl2 : l.getLast? with
      | none =>
        cases l with
        | nil => exact absurd rfl hlne
        | cons a t => simp [List.getLast?_eq_getLast] at hl2
      | some a => simp
    cases hl2 : l.getLast? with
    | none => exact absurd hl2 hlast
    | some a => rfl

theorem numberedLines_append (zs : List String) :
    ∀ (ys : List String) (i : Nat),
      numberedLines i (ys ++ zs) = numberedLines i ys ++ numberedLines (i + ys.length) zs := by
  intro ys
  induction ys with
  | nil => intro i; simp [numberedLines]
  | cons y ys ih =>
    intro i
    show (String.mk (natStr i) ++ ". " ++ y) :: numberedLines (i + 1) (ys ++ zs) =
      (String.mk (natStr i) ++ ". " ++ y) :: numberedLines (i + 1) ys ++
        numberedLines (i + (ys.length + 1)) zs
    rw [ih (i + 1)]
    have : i + 1 + ys.length = i + (ys.length + 1) := by omega
    rw [this]
    rfl

theorem line_data (i : Nat) (x : String) :
    (String.mk (natStr i) ++ ". " ++ x).data = natStr i ++ '.' :: ' ' :: x.data := by
  rw [String.data_append, String.data_append]
  simp [List.append_assoc]

theorem afterFirst_digits (x : List Char) :
    ∀ ds : List Char, (∀ c ∈ ds, pyIsDigit c = true) →
      afterFirstL ['.', ' '] (ds ++ '.' :: ' ' :: x) = x := by
  intro ds
  induction ds with
  | nil =>
    intro _
    show afterFirstL ['.', ' '] ('.' :: ' ' :: x) = x
    simp [afterFirstL, begsWith]
  | cons d ds ih =>
    intro hall
    have hd : ('.' : Char) ≠ d := by
      intro he
      have h1 := hall d (by simp)
      rw [← he] at h1
      exact absurd h1 (by decide)
    show afterFirstL ['.', ' '] (d :: (ds ++ '.' :: ' ' :: x)) = x
    have hbw : begsWith ['.', ' '] (d :: (ds ++ '.' :: ' ' :: x)) = false := by
      simp [begsWith, hd]
    rw [afterFirstL, if_neg (by rw [hbw]; simp)]
    exact ih (fun c hc => hall c (by simp [hc]))

theorem containsL_dotsp (x : List Char) :
    ∀ ds : List Char, containsL ['.', ' '] (ds ++ '.' :: ' ' :: x) = true := by
  intro ds
  induction ds with
  | nil =>
    show containsL ['.', ' '] ('.' :: ' ' :: x) = true
    simp [containsL, begsWith]
  | cons d ds ih =>
    show containsL ['.', ' '] (d :: (ds ++ '.' :: ' ' :: x)) = true
    simp only [containsL, ih, Bool.or_true]

theorem natStr_mem_facts (n : Nat) (c : Char) (hc : c ∈ natStr n) :
    pyIsDigit c = true ∧ pyIsSpace c = false ∧ c ≠ '\n' ∧ c ≠ '.' := by
  cases n with
  | zero =>
    simp only [natStr] at hc
    rcases List.mem_singleton.mp hc with rfl
    exact ⟨by decide, by decide, by decide, by decide⟩
  | succ m =>
    rcases natDigsF_mem (m + 1) (m + 1) [] c hc with h | ⟨d, hd, rfl⟩
    · simp at h
    · exact digitCh_facts d hd

theorem data_eq_nil (x : String) : x.data = [] ↔ x = "" := by
  constructor
  · intro h
    cases x with
    | mk d =>
      simp only at h
      subst h
      rfl
  · intro h
    subst h
    rfl

theorem line_getLast (i : Nat) (x : String) (hx : x.data ≠ []) :
    (natStr i ++ '.' :: ' ' :: x.data).getLast? = x.data.getLast? := by
  rw [List.getLast?_append]
  have h1 : ('.' :: ' ' :: x.data) = ['.', ' '] ++ x.data := rfl
  rw [h1, List.getLast?_append]
  cases hz : x.data.getLast? with
  | none =>
    cases hxd : x.data with
    | nil => exact absurd hxd hx
    | cons a t =>
      rw [hxd] at hz
      simp [List.getLast?_eq_getLast] at hz
  | some z => rfl

theorem line_facts (i : Nat) (x : String)
    (hx : pyStrip x = x ∧ x ≠ "" ∧ '\n' ∉ x.data) :
    ('\n' ∉ (natStr i ++ '.' :: ' ' :: x.data)) ∧
    stripL (natStr i ++ '.' :: ' ' :: x.data) = (natStr i ++ '.' :: ' ' :: x.data) ∧
    (natStr i ++ '.' :: ' ' :: x.data) ≠ [] := by
  obtain ⟨hps, hne, hnl⟩ := hx
  have hxd : x.data ≠ [] := fun h => hne ((data_eq_nil x).mp h)
  have hstrip : stripL x.data = x.data := by
    have h1 := congrArg String.data hps
    exact h1
  refine ⟨?_, ?_, ?_⟩
  · intro hmem
    rcases List.mem_append.mp hmem with h | h
    · exact absurd rfl (natStr_mem_facts i '\n' h).2.2.1
    · rcases List.mem_cons.mp h with h2 | h2
      · exact absurd h2 (by decide)
      · rcases List.mem_cons.mp h2 with h3 | h3
        · exact absurd h3 (by decide)
        · exact hnl h3
  · apply stripL_eq_self
    · intro a ha
      cases hns : natStr i with
      | nil => exact absurd hns (natStr_ne_nil i)
      | cons b t =>
        rw [hns] at ha
        have : a = b := by
          have h2 : ((b :: t) ++ '.' :: ' ' :: x.data).head? = some b := rfl
          rw [h2] at ha
          exact (Option.some.inj ha).symm
        subst this
        exact (natStr_mem_facts i a (by rw [hns]; simp)).2.1
    · intro z hz
      rw [line_getLast i x hxd] at hz
      exact last_not_space_of_strip_eq x.data hstrip z hz
  · cases hns : natStr i with
    | nil => exact absurd hns (natStr_ne_nil i)
    | cons b t => simp

theorem numberedLines_data_cons (i : Nat) (x : String) (xs : List String) :
    (numberedLines i (x :: xs)).map String.data =
      (natStr i ++ '.' :: ' ' :: x.data) :: (numberedLines (i + 1) xs).map String.data := by
  show ((String.mk (natStr i) ++ ". " ++ x) :: numberedLines (i + 1) xs).map String.data = _
  rw [List.map_cons, line_data]

theorem numberedLines_facts :
    ∀ (xs : List String), (∀ x ∈ xs, pyStrip x = x ∧ x ≠ "" ∧ '\n' ∉ x.data) →
      ∀ (i : Nat), ∀ l ∈ (numberedLines i xs).map String.data,
        '\n' ∉ l ∧ stripL l = l ∧ l ≠ [] := by
  intro xs
  induction xs with
  | nil =>
    intro _ i l hl
    simp [numberedLines] at hl
  | cons x xs ih =>
    intro hx i l hl
    rw [numberedLines_data_cons] at hl
    rcases List.mem_cons.mp hl with rfl | hl2
    · exact line_facts i x (hx x (by simp))
    · exact ih (fun y hy => hx y (by simp [hy])) (i + 1) l hl2

theorem nsGo_cons (done cur : List String) (l : List Char) (rest : List (List Char)) :
    nsGo done cur (l :: rest) =
      if (match l with | c :: _ => pyIsDigit c | [] => false) && containsL (". ".data) l then
        (if cur.isEmpty then nsGo done [String.mk (afterFirstL (". ".data) l)] rest
         else nsGo (done ++ [joinSpace cur]) [String.mk (afterFirstL (". ".data) l)] rest)
      else nsGo done (cur ++ [String.mk l]) rest := rfl

theorem nsGo_main :
    ∀ (xs : List String) (i : Nat) (done cur : List String), cur ≠ [] →
      nsGo done cur ((numberedLines i xs).map String.data) = done ++ joinSpace cur :: xs := by
  intro xs
  induction xs with
  | nil =>
    intro i done cur hcur
    have hc : cur.isEmpty = false := by
      cases cur with
      | nil => exact absurd rfl hcur
      | cons a t => rfl
    show nsGo done cur [] = _
    simp [nsGo, hc]
  | cons x xs ih =>
    intro i done cur hcur
    rw [numberedLines_data_cons, nsGo_cons]
    have hdot : ". ".data = ['.', ' '] := rfl
    have htrig : (match (natStr i ++ '.' :: ' ' :: x.data) with
        | c :: _ => pyIsDigit c | [] => false) = true := by
      cases hns : natStr i with
      | nil => exact absurd hns (natStr_ne_nil i)
      | cons a t =>
        show pyIsDigit a = true
        exact (natStr_mem_facts i a (by rw [hns]; simp)).1
    have hcont : containsL (". ".data) (natStr i ++ '.' :: ' ' :: x.data) = true := by
      rw [hdot]
      exact containsL_dotsp x.data (natStr i)
    rw [htrig, hcont]
    simp only [Bool.and_self, if_true]
    have hc : cur.isEmpty = false := by
      cases cur with
      | nil => exact absurd rfl hcur
      | cons a t => rfl
    simp only [hc, Bool.false_eq_true, if_false]
    have haf : afterFirstL (". ".data) (natStr i ++ '.' :: ' ' :: x.data) = x.data := by
      rw [hdot]
      exact afterFirst_digits x.data (natStr i) (fun c hc2 => (natStr_mem_facts i c hc2).1)
    rw [haf, strMk_data]
    rw [ih (i + 1) (done ++ [joinSpace cur]) [x] (by simp)]
    have hjx : joinSpace [x] = x := rfl
    rw [hjx]
    simp [List.append_assoc]

theorem numberedSplit_numbered (xs : List String) (hne : xs ≠ [])
    (hx : ∀ x ∈ xs, pyStrip x = x ∧ x ≠ "" ∧ '\n' ∉ x.data) :
    numberedSplit (numberedBlob xs) = xs := by
  unfold numberedSplit numberedBlob joinNL
  rw [data_strMk]
  have hlines := numberedLines_facts xs hx 1
  have hmapne : (numberedLines 1 xs).map String.data ≠ [] := by
    cases xs with
    | nil => exact absurd rfl hne
    | cons x xs' => rw [numberedLines_data_cons]; simp
  have hsplit : splitCharL '\n' (joinSepL '\n' ((numberedLines 1 xs).map String.data)) =
      (numberedLines 1 xs).map String.data :=
    splitCharL_joinSep '\n' _ hmapne (fun p hp => (hlines p hp).1)
  rw [hsplit]
  have hmap : ((numberedLines 1 xs).map String.data).map stripL =
      (numberedLines 1 xs).map String.data :=
    List.map_congr_left (fun p hp => (hlines p hp).2.1) |>.trans (List.map_id _)
  rw [hmap]
  have hfilt : ((numberedLines 1 xs).map String.data).filter (fun l => ¬l.isEmpty) =
      (numberedLines 1 xs).map String.data := by
    rw [List.filter_eq_self]
    intro p hp
    have := (hlines p hp).2.2
    cases p with
    | nil => exact absurd rfl this
    | cons a t => rfl
  rw [hfilt]
  cases xs with
  | nil => exact absurd rfl hne
  | cons x xs' =>
    rw [numberedLines_data_cons, nsGo_cons]
    have hdot : ". ".data = ['.', ' '] := rfl
    have htrig : (match (natStr 1 ++ '.' :: ' ' :: x.data) with
        | c :: _ => pyIsDigit c | [] => false) = true := by
      cases hns : natStr 1 with
      | nil => exact absurd hns (natStr_ne_nil 1)
      | cons a t =>
        show pyIsDigit a = true
        exact (natStr_mem_facts 1 a (by rw [hns]; simp)).1
    have hcont : containsL (". ".data) (natStr 1 ++ '.' :: ' ' :: x.data) = true := by
      rw [hdot]
      exact containsL_dotsp x.data (natStr 1)
    rw [htrig, hcont]
    simp only [Bool.and_self, if_true, List.isEmpty_nil, if_true]
    have haf : afterFirstL (". ".data) (natStr 1 ++ '.' :: ' ' :: x.data) = x.data := by
      rw [hdot]
      exact afterFirst_digits x.data (natStr 1) (fun c hc2 => (natStr_mem_facts 1 c hc2).1)
    rw [haf, strMk_data]
    rw [nsGo_main xs' 2 [] [x] (by simp)]
    have hjx : joinSpace [x] = x := rfl
    rw [hjx]
    rfl

theorem pyStrip_numberedBlob (xs : List String) (hne : xs ≠ [])
    (hx : ∀ x ∈ xs, pyStrip x = x ∧ x ≠ "" ∧ '\n' ∉ x.data) :
    pyStrip (numberedBlob xs) = numberedBlob xs := by
  unfold pyStrip numberedBlob joinNL
  rw [data_strMk]
  congr 1
  apply stripL_eq_self
  · intro a ha
    cases xs with
    | nil => exact absurd rfl hne
    | cons x xs' =>
      rw [numberedLines_data_cons] at ha
      have hl1ne : (natStr 1 ++ '.' :: ' ' :: x.data) ≠ [] := by
        cases hns : natStr 1 with
        | nil => exact absurd hns (natStr_ne_nil 1)
        | cons b t => simp
      rw [joinSep_head '\n' _ _ hl1ne] at ha
      cases hns : natStr 1 with
      | nil => exact absurd hns (natStr_ne_nil 1)
      | cons b t =>
        rw [hns] at ha
        have hab : a = b := by
          have h2 : ((b :: t) ++ '.' :: ' ' :: x.data).head? = some b := rfl
          rw [h2] at ha
          exact (Option.some.inj ha).symm
        subst hab
        exact (natStr_mem_facts 1 a (by rw [hns]; simp)).2.1
  · intro z hz
    rcases List.eq_nil_or_concat xs with h | ⟨ys, y, rfl⟩
    · exact absurd h hne
    · rw [List.concat_eq_append] at hz hx
      have hally : pyStrip y = y ∧ y ≠ "" ∧ '\n' ∉ y.data := hx y (by simp)
      have hyd : y.data ≠ [] := fun h => hally.2.1 ((data_eq_nil y).mp h)
      have hmap : (numberedLines 1 (ys ++ [y])).map String.data =
          (numberedLines 1 ys).map String.data ++
            [natStr (1 + ys.length) ++ '.' :: ' ' :: y.data] := by
        rw [numberedLines_append [y] ys 1]
        rw [List.map_append]
        congr 1
        show [(String.mk (natStr (1 + ys.length)) ++ ". " ++ y).data] = _
        rw [line_data]
      rw [hmap] at hz
      have hparts : ∀ p ∈ (numberedLines 1 ys).map String.data ++
          [natStr (1 + ys.length) ++ '.' :: ' ' :: y.data], p ≠ [] := by
        intro p hp
        rcases List.mem_append.mp hp with h | h
        · have hys : ∀ x2 ∈ ys, pyStrip x2 = x2 ∧ x2 ≠ "" ∧ '\n' ∉ x2.data :=
            fun x2 hx2 => hx x2 (by simp [hx2])
          exact (numberedLines_facts ys hys 1 p h).2.2
        · rcases List.mem_singleton.mp h with rfl
          cases hns : natStr (1 + ys.length) with
          | nil => exact absurd hns (natStr_ne_nil _)
          | cons b t => simp
      rw [joinSep_getLast '\n' _ _ hparts] at hz
      rw [line_getLast _ y hyd] at hz
      have hstr : stripL y.data = y.data := congrArg String.data hally.1
      exact last_not_space_of_strip_eq y.data hstr z hz

theorem oBatch_conformant (env : OllamaEnv) (fmt : String → String) (g : String → String)
    (b : List String) (hb : b ≠ [])
    (happ : env.api (fmt (numberedBlob b)) = some (numberedBlob (b.map g)))
    (hg : ∀ x ∈ b, pyStrip (g x) = g x ∧ g x ≠ "" ∧ '\n' ∉ (g x).data) :
    oBatch env fmt b = b.map g := by
  have hbe : b.isEmpty = false := by
    cases b with
    | nil => exact absurd rfl hb
    | cons c t => rfl
  have hmne : b.map g ≠ [] := by
    cases b with
    | nil => exact absurd rfl hb
    | cons c t => simp
  have hmg : ∀ y ∈ b.map g, pyStrip y = y ∧ y ≠ "" ∧ '\n' ∉ y.data := by
    intro y hy
    rcases List.mem_map.mp hy with ⟨x, hx2, rfl⟩
    exact hg x hx2
  unfold oBatch
  simp only [hbe, Bool.false_eq_true, if_false, happ]
  rw [pyStrip_numberedBlob (b.map g) hmne hmg]
  rw [numberedSplit_numbered (b.map g) hmne hmg]
  have hlen : (b.map g).length = b.length := List.length_map _ _
  simp [hlen]

theorem gBatch_conformant (env : GoogleEnv) (f : String → String) (b : List String)
    (hb : b ≠ []) (happ : env.batchRaw b = some (b.map f)) :
    gBatch env b = b.map (fun t => pyStrip (f t)) ∧ gBatch env b ≠ [] := by
  have hbe : b.isEmpty = false := by
    cases b with
    | nil => exact absurd rfl hb
    | cons c t => rfl
  have h1 : gBatch env b = b.map (fun t => pyStrip (f t)) := by
    unfold gBatch
    simp only [hbe, Bool.false_eq_true, if_false, happ]
    rw [List.map_map]
    rfl
  refine ⟨h1, ?_⟩
  rw [h1]
  cases b with
  | nil => exact absurd rfl hb
  | cons c t => simp

theorem gSingle_conformant (env : GoogleEnv) (f : String → String) (t : String)
    (ht : t ≠ "") (happ : env.singleRaw t = some (f t)) :
    gSingle env t = pyStrip (f t) := by
  unfold gSingle
  rw [if_neg ht, happ]

theorem oSingle_conformant (env : OllamaEnv) (fmt : String → String) (g : String → String)
    (t : String) (ht : t ≠ "") (happ : env.api (fmt t) = some (g t)) :
    oSingle env fmt t = pyStrip (g t) := by
  unfold oSingle
  rw [if_neg ht, happ]

/-- C1 (amended): restricted to input lists whose entries are non-blank, with
a verified key and a conformant backend (one translation per input, in
order; for Ollama a well-formed numbered response), both adapters return one
translation per input text in input order: the Google result is the
per-text translation of each stripped input (stripped), and the Ollama
result is the per-text translation of each stripped input.  Length
preservation is the `map` form's immediate consequence. -/
theorem C1_translate_length_order (genv : GoogleEnv) (oenv : OllamaEnv)
    (fmt : String → String) (f g : String → String) (texts : List String) (B : Nat)
    (hne : texts ≠ []) (hB : 1 ≤ B) (hver : genv.verifyOk = true)
    (hnb : ∀ t ∈ texts, pyStrip t ≠ "")
    (hgb : ∀ b ∈ chunksOf (min B 100) (texts.map pyStrip), genv.batchRaw b = some (b.map f))
    (hgs : ∀ t ∈ texts, genv.singleRaw (pyStrip t) = some (f (pyStrip t)))
    (hob : 2 ≤ texts.length → ∀ b ∈ chunksOf B (texts.map pyStrip),
      oenv.api (fmt (numberedBlob b)) = some (numberedBlob (b.map g)))
    (hos : texts.length = 1 → ∀ t ∈ texts, oenv.api (fmt (pyStrip t)) = some (g (pyStrip t)))
    (hreg : ∀ t ∈ texts, pyStrip (g (pyStrip t)) = g (pyStrip t) ∧ g (pyStrip t) ≠ "" ∧
      '\n' ∉ (g (pyStrip t)).data) :
    googleTranslate genv texts true B = texts.map (fun t => pyStrip (f (pyStrip t))) ∧
    ollamaTranslate oenv fmt texts true B = texts.map (fun t => g (pyStrip t)) := by
  have hte : texts.isEmpty = false := by
    cases texts with
    | nil => exact absurd rfl hne
    | cons a l => rfl
  have hfilter : (texts.map pyStrip).filter (fun t => t ≠ "") = texts.map pyStrip := by
    rw [List.filter_eq_self]
    intro a ha
    rcases List.mem_map.mp ha with ⟨t, ht, rfl⟩
    simpa using hnb t ht
  have hmne : texts.map pyStrip ≠ [] := by
    cases texts with
    | nil => exact absurd rfl hne
    | cons a l => simp
  have htse : (texts.map pyStrip).isEmpty = false := by
    cases hm : texts.map pyStrip with
    | nil => exact absurd hm hmne
    | cons a l => rfl
  have hlen : (texts.map pyStrip).length = texts.length := List.length_map _ _
  constructor
  · unfold googleTranslate
    simp only [hte, Bool.false_eq_true, if_false, hver, Bool.not_true, hfilter, htse]
    by_cases h1 : texts.length = 1
    · rw [if_pos (by simp [h1])]
      rw [List.map_map]
      apply List.map_congr_left
      intro t ht
      show gSingle genv (pyStrip t) = pyStrip (f (pyStrip t))
      exact gSingle_conformant genv f (pyStrip t) (hnb t ht) (hgs t ht)
    · rw [if_neg (by simp [h1])]
      have hb100 : min B 100 ≠ 0 := by omega
      have hbody : ∀ b ∈ chunksOf (min B 100) (texts.map pyStrip),
          (if (gBatch genv b).isEmpty then b.map (gSingle genv) else gBatch genv b) =
            b.map (fun t => pyStrip (f t)) := by
        intro b hb
        have hbne : b ≠ [] := chunks_mem_ne_nil (min B 100) hb100
          (texts.map pyStrip).length (texts.map pyStrip) le_rfl b hb
        obtain ⟨he1, he2⟩ := gBatch_conformant genv f b hbne (hgb b hb)
        have hre : (gBatch genv b).isEmpty = false := by
          cases hgb2 : gBatch genv b with
          | nil => exact absurd hgb2 he2
          | cons a l => rfl
        simp only [hre, Bool.false_eq_true, if_false]
        exact he1
      rw [flatMap_chunks_map (min B 100) hb100 (texts.map pyStrip) _
        (fun t => pyStrip (f t)) hbody]
      rw [List.map_map]
      rfl
  · unfold ollamaTranslate
    simp only [hte, Bool.false_eq_true, if_false, hfilter, htse, Bool.not_true]
    by_cases h1 : texts.length = 1
    · rw [if_pos (by simp [h1])]
      rw [List.map_map]
      apply List.map_congr_left
      intro t ht
      show oSingle oenv fmt (pyStrip t) = g (pyStrip t)
      rw [oSingle_conformant oenv fmt g (pyStrip t) (hnb t ht) (hos h1 t ht)]
      exact (hreg t ht).1
    · rw [if_neg (by simp [h1])]
      have hB0 : B ≠ 0 := by omega
      have h2 : 2 ≤ texts.length := by
        have hp : 0 < texts.length := List.length_pos.mpr hne
        omega
      have hbody : ∀ b ∈ chunksOf B (texts.map pyStrip),
          (if (oBatch oenv fmt b).isEmpty then b.map (oSingle oenv fmt) else oBatch oenv fmt b) =
            b.map g := by
        intro b hb
        have hbne : b ≠ [] := chunks_mem_ne_nil B hB0
          (texts.map pyStrip).length (texts.map pyStrip) le_rfl b hb
        have hsub := chunks_mem_subset B hB0 (texts.map pyStrip) b hb
        have hgpart : ∀ x ∈ b, pyStrip (g x) = g x ∧ g x ≠ "" ∧ '\n' ∉ (g x).data := by
          intro x hxb
          rcases List.mem_map.mp (hsub x hxb) with ⟨t, ht, rfl⟩
          exact hreg t ht
        have heq := oBatch_conformant oenv fmt g b hbne (hob h2 b hb) hgpart
        have hre : (oBatch oenv fmt b).isEmpty = false := by
          rw [heq]
          cases b with
          | nil => exact absurd rfl hbne
          | cons a l => simp
        simp only [hre, Bool.false_eq_true, if_false]
        exact heq
      rw [flatMap_chunks_map B hB0 (texts.map pyStrip) _ g hbody]
      rw [List.map_map]
      rfl

/-- Witness for C1: two non-blank texts, a Google backend translating each
text `t` to `"G" ++ t`, and an Ollama backend answering the numbered batch
prompt with the matching numbered blob of `"T" ++ t` translations; both
adapters return the translations in input order. -/
theorem C1_witness :
    googleTranslate
      ⟨true, fun b => some (b.map (fun t => "G" ++ t)), fun t => some ("G" ++ t)⟩
      ["hello", "there"] true 5 = ["Ghello", "Gthere"] ∧
    ollamaTranslate
      ⟨fun p => if p = "1. hello\n2. there" then some "1. Thello\n2. Tthere" else none⟩
      (fun t => t) ["hello", "there"] true 5 = ["Thello", "Tthere"] := by
  obtain ⟨h1, h2⟩ := C1_translate_length_order
    ⟨true, fun b => some (b.map (fun t => "G" ++ t)), fun t => some ("G" ++ t)⟩
    ⟨fun p => if p = "1. hello\n2. there" then some "1. Thello\n2. Tthere" else none⟩
    (fun t => t) (fun t => "G" ++ t) (fun t => "T" ++ t) ["hello", "there"] 5
    (by decide) (by decide) rfl (by decide) (by decide) (fun t _ => rfl)
    (by decide) (by decide) (by decide)
  exact ⟨h1.trans (by decide), h2.trans (by decide)⟩
